import Mathlib

/-!
Verification of the reverse-mode automatic-differentiation engine in
`Solution_Autodiff_Algorithm.ipynb` (the final `Scalar` class of cell-53,
together with the `mse` helper of cell-69).

The Python `Scalar` objects form an arena-style directed acyclic graph:
every `Scalar.__init__`, `Scalar.__add__` and `Scalar.__mul__` call creates
one fresh node.  We embed this as a list of operation tags (`Op`), indexed
by creation order, together with the two mutable float fields of each node
(`val`, `grad`), held as total maps `Nat → ℚ` in a `Machine`.

Numeric model: the notebook computes in IEEE-754 float64; the embedding
uses exact rationals.  All concrete values appearing in the verified
claims (inputs 2..5, gradients 2, 48, 50, …) are small dyadic/integer
values on which float64 arithmetic is exact, so the exact-rational model
agrees with the code on them.

The deferred `backward` closure of a result node is determined entirely by
the operation that produced the node (the operand object references it
captures are the operand indices stored in the `Op` tag), so the eager
cascade `result.backward()` is embedded as the fueled recursion `backward`
below.  Mirroring the Python closures:
  * `__add__`'s rule does `self.grad += result.grad; other.grad +=
    result.grad` and then invokes `self.backward(); other.backward()`;
  * `__mul__`'s rule does `self.grad += other.val * result.grad;
    other.grad += self.val * result.grad` and then cascades likewise;
  * a leaf's rule is `lambda: None`.
`backward` additionally returns the list of rule firings
`(node, grad-at-firing)` that occurred, in execution order; this trace is
pure instrumentation (the machine result does not depend on it).
-/

set_option maxHeartbeats 1000000

namespace Autodiff

/-- Operation tag of a node: how the node was produced.  `leaf` is a node
made by `Scalar.__init__` (backward rule `lambda: None`); `add a b` and
`mul a b` are nodes produced by `a.__add__(b)` / `a.__mul__(b)` where `a`,
`b` are the creation indices of the operand nodes. -/
inductive Op where
  | leaf : Op
  | add : Nat → Nat → Op
  | mul : Nat → Nat → Op
deriving DecidableEq

/-- The whole population of `Scalar` objects: `ops` lists how each node was
produced (index = creation order), `vals`/`grads` give the current `val`
and `grad` fields of node `i`. -/
structure Machine where
  ops : List Op
  vals : Nat → ℚ
  grads : Nat → ℚ

/-- The operation tag of node `i`; out-of-range indices read as leaves. -/
def opAt (g : List Op) (i : Nat) : Op := g.getD i Op.leaf

/-- The operand indices referenced by a backward rule. -/
def operands : Op → List Nat
  | Op.leaf => []
  | Op.add a b => [a, b]
  | Op.mul a b => [a, b]

/-- Pointwise update of a field map. -/
def upd (f : Nat → ℚ) (j : Nat) (x : ℚ) : Nat → ℚ :=
  fun k => if k = j then x else f k

/-- `Scalar.__init__(val)`: fresh node with the given value, gradient `0`,
no-op backward rule.  Returns the fresh node's index. -/
def scalarInit (v : ℚ) (m : Machine) : Nat × Machine :=
  (m.ops.length,
   ⟨m.ops ++ [Op.leaf], upd m.vals m.ops.length v, upd m.grads m.ops.length 0⟩)

/-- `a.__add__(b)`: fresh node whose value is `a.val + b.val` (operand
values read at application time), gradient `0`, backward rule recorded as
`Op.add a b`. -/
def scalarAdd (a b : Nat) (m : Machine) : Nat × Machine :=
  (m.ops.length,
   ⟨m.ops ++ [Op.add a b], upd m.vals m.ops.length (m.vals a + m.vals b),
    upd m.grads m.ops.length 0⟩)

/-- `a.__mul__(b)`: fresh node whose value is `a.val * b.val`, gradient
`0`, backward rule recorded as `Op.mul a b`. -/
def scalarMul (a b : Nat) (m : Machine) : Nat × Machine :=
  (m.ops.length,
   ⟨m.ops ++ [Op.mul a b], upd m.vals m.ops.length (m.vals a * m.vals b),
    upd m.grads m.ops.length 0⟩)

/-- Caller-side assignment `node.grad = x`. -/
def setGrad (j : Nat) (x : ℚ) (m : Machine) : Machine :=
  { m with grads := upd m.grads j x }

/-- Caller-side assignment `node.val = x` (the training loop mutates
`w.val`; the engine itself never does this). -/
def setVal (j : Nat) (x : ℚ) (m : Machine) : Machine :=
  { m with vals := upd m.vals j x }

/-- `node.grad += x`, the accumulation step of a backward rule. -/
def addGrad (j : Nat) (x : ℚ) (m : Machine) : Machine :=
  { m with grads := upd m.grads j (m.grads j + x) }

/-- `i.backward()`: the eager cascade of the notebook's closures.  For an
`add a b` node: `a.grad += result.grad; b.grad += result.grad;
a.backward(); b.backward()`.  For a `mul a b` node: `a.grad += b.val *
result.grad; b.grad += a.val * result.grad; a.backward(); b.backward()`.
Leaves do nothing.  The fuel argument only serves termination: on a
well-formed graph every operand index is smaller than its result's index,
so fuel `i + 1` lets the recursion run to completion (each recursive call
targets a strictly smaller node index).  Returns the updated machine and
the trace of rule firings `(node, grad of the node at firing time)`. -/
def backward (g : List Op) (fuel : Nat) (i : Nat) (m : Machine) :
    Machine × List (Nat × ℚ) :=
  match fuel with
  | 0 => (m, [])
  | fuel' + 1 =>
    match opAt g i with
    | Op.leaf => (m, [])
    | Op.add a b =>
      let gr := m.grads i
      let m2 := addGrad b gr (addGrad a gr m)
      let r1 := backward g fuel' a m2
      let r2 := backward g fuel' b r1.1
      (r2.1, (i, gr) :: (r1.2 ++ r2.2))
    | Op.mul a b =>
      let gr := m.grads i
      let m2 := addGrad b (m.vals a * gr) (addGrad a (m.vals b * gr) m)
      let r1 := backward g fuel' a m2
      let r2 := backward g fuel' b r1.1
      (r2.1, (i, gr) :: (r1.2 ++ r2.2))

/-- Well-formedness: every operand of a node was created earlier than the
node — exactly what graph construction through `scalarInit`/`scalarAdd`/
`scalarMul` guarantees (“an operator may never consume a node that does
not yet exist”). -/
def wfB (g : List Op) : Bool :=
  (List.range g.length).all fun i =>
    (operands (opAt g i)).all fun a => decide (a < i)

/-- Propositional form of `wfB`. -/
@[reducible] def Wf (g : List Op) : Prop := wfB g = true

/-- Fueled reachability test: `j` is reachable from `i` along operand
edges (each node reaches itself). -/
def reachB (g : List Op) : Nat → Nat → Nat → Bool
  | 0, i, j => i == j
  | f + 1, i, j => i == j || (operands (opAt g i)).any fun a => reachB g f a j

/-- `j` is an ancestor-or-self of root `i` in the expression graph: the
value of `i` was computed (directly or transitively) from the value of
`j`.  Fuel `i + 1` is complete on well-formed graphs. -/
@[reducible] def Reach (g : List Op) (i j : Nat) : Prop :=
  reachB g (i + 1) i j = true

/-- Forward-mode derivative, fueled: `dvalB g v n f i` is the partial
derivative of node `i`'s value with respect to node `n`'s value, when
every node's stored value is given by `v` — computed by the textbook
forward chain rule over the expression structure. -/
def dvalB (g : List Op) (v : Nat → ℚ) (n : Nat) : Nat → Nat → ℚ
  | 0, i => if i = n then 1 else 0
  | f + 1, i =>
    if i = n then 1 else
    match opAt g i with
    | Op.leaf => 0
    | Op.add a b => dvalB g v n f a + dvalB g v n f b
    | Op.mul a b => v b * dvalB g v n f a + v a * dvalB g v n f b

/-- The partial derivative `∂(val i)/∂(val n)` at the stored values `v`.
Fuel `i + 1` is complete on well-formed graphs. -/
def dval (g : List Op) (v : Nat → ℚ) (n i : Nat) : ℚ := dvalB g v n (i + 1) i

/-- Local backward weight: the coefficient with which one firing of node
`c`'s rule (with upstream gradient `gr`) contributes `cw g v c n * gr` to
`n.grad`. -/
def cw (g : List Op) (v : Nat → ℚ) (c n : Nat) : ℚ :=
  match opAt g c with
  | Op.leaf => 0
  | Op.add a b => (if a = n then 1 else 0) + (if b = n then 1 else 0)
  | Op.mul a b => (if a = n then v b else 0) + (if b = n then v a else 0)

/-- Number of times node `j` occurs as an operand, counting slots
(`add j j` counts twice). -/
def occ (g : List Op) (j : Nat) : Nat :=
  ((List.range g.length).map fun i =>
    ((operands (opAt g i)).filter fun a => a = j).length).sum

/-- Number of distinct operator applications that consume node `j`
(`add j j` counts once). -/
def appCount (g : List Op) (j : Nat) : Nat :=
  ((List.range g.length).filter fun i => j ∈ operands (opAt g i)).length

/-- Node `i` was produced by an operator (its backward rule is not the
no-op). -/
def Interior (g : List Op) (i : Nat) : Prop := opAt g i ≠ Op.leaf

/-- Stored values are consistent with the operations that produced the
nodes — true of every graph built through the constructors and not
subsequently mutated. -/
def Consistent (g : List Op) (v : Nat → ℚ) : Prop :=
  ∀ i, i < g.length →
    match opAt g i with
    | Op.leaf => True
    | Op.add a b => v i = v a + v b
    | Op.mul a b => v i = v a * v b

/-- Recomputed value of node `i` when node `n`'s stored value is replaced
by `t` and all nodes are re-evaluated from their operations (fueled). -/
def evalB (g : List Op) (v : Nat → ℚ) (n : Nat) (t : ℚ) : Nat → Nat → ℚ
  | 0, i => if i = n then t else v i
  | f + 1, i =>
    if i = n then t else
    match opAt g i with
    | Op.leaf => v i
    | Op.add a b => evalB g v n t f a + evalB g v n t f b
    | Op.mul a b => evalB g v n t f a * evalB g v n t f b

/-- `evalWith g v n t i`: value of node `i` as a function of node `n`'s
value `t`.  Fuel `i + 1` is complete on well-formed graphs. -/
def evalWith (g : List Op) (v : Nat → ℚ) (n : Nat) (t : ℚ) (i : Nat) : ℚ :=
  evalB g v n t (i + 1) i

/-- Second-order Taylor remainder of `evalWith` around the stored value of
`n`, fueled alongside `dvalB` (see `evalWith_taylor`). -/
def remB (g : List Op) (v : Nat → ℚ) (n : Nat) (h : ℚ) : Nat → Nat → ℚ
  | 0, _ => 0
  | f + 1, i =>
    if i = n then 0 else
    match opAt g i with
    | Op.leaf => 0
    | Op.add a b => remB g v n h f a + remB g v n h f b
    | Op.mul a b =>
      dvalB g v n f a * dvalB g v n f b +
      v a * remB g v n h f b + v b * remB g v n h f a +
      h * (dvalB g v n f a * remB g v n h f b + dvalB g v n f b * remB g v n h f a) +
      h * h * (remB g v n h f a * remB g v n h f b)

/-- The Taylor remainder of node `i` viewed from node `n`, at offset `h`. -/
def rem (g : List Op) (v : Nat → ℚ) (n : Nat) (h : ℚ) (i : Nat) : ℚ :=
  remB g v n h (i + 1) i

/-- The machine with no `Scalar` objects yet. -/
def emptyM : Machine := ⟨[], fun _ => 0, fun _ => 0⟩

/-- `root.backward()` invoked once for each root in the list, in order. -/
def backwardSeq (g : List Op) (fuel : Nat) (roots : List Nat) (m : Machine) :
    Machine :=
  roots.foldl (fun m' r => (backward g fuel r m').1) m

/-- One backward step never writes a `val` field. -/
theorem backward_vals (g : List Op) (fuel : Nat) :
    ∀ (i : Nat) (m : Machine), ((backward g fuel i m).1).vals = m.vals := by
  induction fuel with
  | zero => intro i m; rfl
  | succ f ih =>
    intro i m
    unfold backward
    cases hop : opAt g i with
    | leaf => rfl
    | add a b => simp only [hop]; rw [ih, ih]; rfl
    | mul a b => simp only [hop]; rw [ih, ih]; rfl

/-- One backward step never changes the graph structure. -/
theorem backward_ops (g : List Op) (fuel : Nat) :
    ∀ (i : Nat) (m : Machine), ((backward g fuel i m).1).ops = m.ops := by
  induction fuel with
  | zero => intro i m; rfl
  | succ f ih =>
    intro i m
    unfold backward
    cases hop : opAt g i with
    | leaf => rfl
    | add a b => simp only [hop]; rw [ih, ih]; rfl
    | mul a b => simp only [hop]; rw [ih, ih]; rfl

/-! ### Concrete graphs used by individual claims -/

/-- Notebook cell-55/57 graph: `x = Scalar(4.); y = (x * x * x) + x + x`,
then `x.grad = 0.; y.grad = 1.` — node ids: x=0, x*x=1, (x*x)*x=2,
·+x=3, y=4. -/
def c4M : Machine :=
  let r0 := scalarInit 4 emptyM
  let r1 := scalarMul r0.1 r0.1 r0.2
  let r2 := scalarMul r1.1 r0.1 r1.2
  let r3 := scalarAdd r2.1 r0.1 r2.2
  let r4 := scalarAdd r3.1 r0.1 r3.2
  setGrad r4.1 1 (setGrad r0.1 0 r4.2)

/-- Sub-expression of claim C4: `x = Scalar(4.); y = (x * x) * x` under
the same protocol — node ids: x=0, x*x=1, y=2. -/
def c4bM : Machine :=
  let r0 := scalarInit 4 emptyM
  let r1 := scalarMul r0.1 r0.1 r0.2
  let r2 := scalarMul r1.1 r0.1 r1.2
  setGrad r2.1 1 (setGrad r0.1 0 r2.2)

/-- Claim C4 (spec §8 "Cubic chain rule" / "Combined expression", notebook
cells 55–58): with `x = Scalar(4)` and `y = ((x*x)*x) + x + x`, zeroing
`x.grad`, seeding `y.grad = 1` and running `y.backward()` leaves
`x.grad = 50`; for `y = (x*x)*x` alone the same protocol leaves
`x.grad = 48`. -/
theorem claim_C4 :
    (backward c4M.ops 5 4 c4M).1.grads 0 = 50 ∧
    (backward c4bM.ops 3 2 c4bM).1.grads 0 = 48 := by
  constructor
  · norm_num [c4M, backward, opAt, addGrad, upd, scalarInit, scalarMul,
      scalarAdd, setGrad, emptyM]
  · norm_num [c4bM, backward, opAt, addGrad, upd, scalarInit, scalarMul,
      setGrad, emptyM]

/-- `x = Scalar(5); y = x + x` with the zero/seed protocol — node ids:
x=0, y=1. -/
def c5M : Machine :=
  let r0 := scalarInit 5 emptyM
  let r1 := scalarAdd r0.1 r0.1 r0.2
  setGrad r1.1 1 (setGrad r0.1 0 r1.2)

/-- Claim C5 (spec §8 "Additive fan-out"): with `x = Scalar(5)` and
`y = x + x` (the same node as both operands), zeroing `x.grad`, seeding
`y.grad = 1` and running `y.backward()` leaves `x.grad = 2`. -/
theorem claim_C5 : (backward c5M.ops 2 1 c5M).1.grads 0 = 2 := by
  norm_num [c5M, backward, opAt, addGrad, upd, scalarInit, scalarAdd,
    setGrad, emptyM]

/-- Claim C6 (spec §8 first bullet, §4.1): for all values `p`, `q`, the
node returned by `Scalar(p) + Scalar(q)` has value `p + q` and the node
returned by `Scalar(p) * Scalar(q)` has value `p * q`; each result is a
fresh node (its index is the previous node count, distinct from both
operands) whose gradient reads `0` before any backward pass, and the
operand nodes are untouched.  (Value arithmetic is modelled exactly over
ℚ; in the notebook it is the corresponding float64 operation.) -/
theorem claim_C6 (p q : ℚ) :
    (scalarAdd 0 1 (scalarInit q (scalarInit p emptyM).2).2).2.vals 2 = p + q ∧
    (scalarMul 0 1 (scalarInit q (scalarInit p emptyM).2).2).2.vals 2 = p * q ∧
    (scalarAdd 0 1 (scalarInit q (scalarInit p emptyM).2).2).1 =
      (scalarInit q (scalarInit p emptyM).2).2.ops.length ∧
    (scalarAdd 0 1 (scalarInit q (scalarInit p emptyM).2).2).2.grads 2 = 0 ∧
    (scalarMul 0 1 (scalarInit q (scalarInit p emptyM).2).2).2.grads 2 = 0 ∧
    (scalarAdd 0 1 (scalarInit q (scalarInit p emptyM).2).2).2.vals 0 = p ∧
    (scalarAdd 0 1 (scalarInit q (scalarInit p emptyM).2).2).2.vals 1 = q := by
  refine ⟨?_, ?_, ?_, ?_, ?_, ?_, ?_⟩ <;>
    simp [scalarAdd, scalarMul, scalarInit, emptyM, upd]

/-- Claim C7 (spec §3, §8 "Forward immutability"): the engine never writes
a `val` field — any sequence of `backward()` invocations, on any nodes of
any graph with any fuel, leaves every node's `val` (and the graph
structure itself) unchanged; backward passes write only `grad` fields. -/
theorem claim_C7 (g : List Op) (fuel : Nat) (roots : List Nat) (m : Machine) :
    (backwardSeq g fuel roots m).vals = m.vals ∧
    (backwardSeq g fuel roots m).ops = m.ops := by
  induction roots generalizing m with
  | nil => exact ⟨rfl, rfl⟩
  | cons r rs ih =>
    have h := ih (m := (backward g fuel r m).1)
    refine ⟨?_, ?_⟩
    · calc (backwardSeq g fuel (r :: rs) m).vals
          = ((backward g fuel r m).1).vals := h.1
        _ = m.vals := backward_vals g fuel r m
    · calc (backwardSeq g fuel (r :: rs) m).ops
          = ((backward g fuel r m).1).ops := h.2
        _ = m.ops := backward_ops g fuel r m

/-- `a = Scalar(2); b = Scalar(3); c = a * b`, then the caller mutates
`b.val = 10` before zeroing/seeding and calling `c.backward()` — node
ids: a=0, b=1, c=2. -/
def c3M : Machine :=
  let r0 := scalarInit 2 emptyM
  let r1 := scalarInit 3 r0.2
  let r2 := scalarMul r0.1 r1.1 r1.2
  setGrad r2.1 1 (setGrad r1.1 0 (setGrad r0.1 0 (setVal r1.1 10 r2.2)))

/-- Counterexample to claim C3 as stated: the `__mul__` backward closure
does NOT capture operand values at graph-construction time.  With
`a = Scalar(2)`, `b = Scalar(3)`, `c = a * b`, mutating `b.val = 10`
after construction and before `c.backward()`, the pass adds the NEW value
`10 * c.grad = 10` to `a.grad`, not the construction-time
`b_old * c.grad = 3` the claim predicts. -/
theorem claim_C3_counterexample :
    (backward c3M.ops 3 2 c3M).1.grads 0 = 10 ∧
    ¬ (backward c3M.ops 3 2 c3M).1.grads 0 = 3 * 1 := by
  have h : (backward c3M.ops 3 2 c3M).1.grads 0 = 10 := by
    norm_num [c3M, backward, opAt, addGrad, upd, scalarInit, scalarMul,
      setGrad, setVal, emptyM]
  refine ⟨h, ?_⟩
  rw [h]; norm_num

/-- Claim C3 amended: a `Multiply` node's backward rule reads its operand
values at the moment `backward()` is invoked (the closure captures the
operand objects, not their values): if `b.val` is mutated to `q'` after
constructing `c = a * b`, the pass adds `q' * c.grad` to `a.grad` and the
unmutated `a.val = p` to `b.grad`; taking `q' = q` recovers the
construction-time values, so the published behaviour is observed whenever
no mutation happens between construction and the pass.  Moreover neither
operator mutates its operands in place and each application makes a fresh
node: after `c = a * b`, `c`'s index is the previous node count, and the
operands' `val`/`grad` fields are untouched (value unchanged, gradient
still `0`). -/
theorem claim_C3_amended (p q qm : ℚ) :
    ((backward
        (setGrad 2 1 (setGrad 1 0 (setGrad 0 0 (setVal 1 qm
          (scalarMul 0 1 (scalarInit q (scalarInit p emptyM).2).2).2)))).ops
        3 2
        (setGrad 2 1 (setGrad 1 0 (setGrad 0 0 (setVal 1 qm
          (scalarMul 0 1 (scalarInit q (scalarInit p emptyM).2).2).2))))).1.grads 0
      = qm * 1) ∧
    ((backward
        (setGrad 2 1 (setGrad 1 0 (setGrad 0 0 (setVal 1 qm
          (scalarMul 0 1 (scalarInit q (scalarInit p emptyM).2).2).2)))).ops
        3 2
        (setGrad 2 1 (setGrad 1 0 (setGrad 0 0 (setVal 1 qm
          (scalarMul 0 1 (scalarInit q (scalarInit p emptyM).2).2).2))))).1.grads 1
      = p * 1) ∧
    (scalarMul 0 1 (scalarInit q (scalarInit p emptyM).2).2).1 =
      (scalarInit q (scalarInit p emptyM).2).2.ops.length ∧
    (scalarMul 0 1 (scalarInit q (scalarInit p emptyM).2).2).2.vals 0 = p ∧
    (scalarMul 0 1 (scalarInit q (scalarInit p emptyM).2).2).2.vals 1 = q ∧
    (scalarMul 0 1 (scalarInit q (scalarInit p emptyM).2).2).2.grads 0 = 0 ∧
    (scalarMul 0 1 (scalarInit q (scalarInit p emptyM).2).2).2.grads 1 = 0 := by
  refine ⟨?_, ?_, ?_, ?_, ?_, ?_, ?_⟩ <;>
    simp [backward, opAt, addGrad, upd, scalarInit, scalarMul, setGrad,
      setVal, emptyM]

/-- Reconvergent graph with an interior shared node: `x = Scalar(1)`;
`u = x + x`; `v = x + x` (two separate applications both fed by x);
`w = u + v` (shared downstream ancestor); `r = w + w` (root) — node ids
x=0, u=1, v=2, w=3, r=4; protocol `x.grad = 0; r.grad = 1`. -/
def c2M : Machine :=
  let r0 := scalarInit 1 emptyM
  let r1 := scalarAdd r0.1 r0.1 r0.2
  let r2 := scalarAdd r0.1 r0.1 r1.2
  let r3 := scalarAdd r1.1 r2.1 r2.2
  let r4 := scalarAdd r3.1 r3.1 r3.2
  setGrad r4.1 1 (setGrad r0.1 0 r4.2)

/-- Counterexample to claim C2 as stated: in the graph where node 0 feeds
the two separate applications 1 and 2, whose results both feed the shared
downstream ancestor 3 of the root 4, one zero/seed/backward pass leaves
`x.grad = 24`, while the analytically correct sum over all eight
root-to-x paths (the forward derivative `dval`) is `8`: the eager cascade
fires node 3's rule twice and node 1's/2's rules twice each, overcounting.
The conjuncts also record that the graph has the claimed reconvergent
shape. -/
theorem claim_C2_counterexample :
    (backward c2M.ops 5 4 c2M).1.grads 0 = 24 ∧
    dval c2M.ops c2M.vals 0 4 = 8 ∧
    ¬ (24 : ℚ) = 8 ∧
    (0 ∈ operands (opAt c2M.ops 1) ∧ 0 ∈ operands (opAt c2M.ops 2) ∧
     ¬ (1 : Nat) = 2 ∧
     1 ∈ operands (opAt c2M.ops 3) ∧ 2 ∈ operands (opAt c2M.ops 3) ∧
     3 ∈ operands (opAt c2M.ops 4)) := by
  refine ⟨?_, ?_, by norm_num, ?_⟩
  · norm_num [c2M, backward, opAt, addGrad, upd, scalarInit, scalarAdd,
      setGrad, emptyM]
  · norm_num [c2M, dval, dvalB, opAt, upd, scalarInit, scalarAdd, setGrad,
      emptyM]
  · refine ⟨?_, ?_, by norm_num, ?_, ?_, ?_⟩ <;>
      simp [c2M, opAt, operands, scalarInit, scalarAdd, setGrad, emptyM]

/-- Diamond where the shared downstream ancestor IS the root:
`x = Scalar(p)`; `u = x + x`; `v = x * x`; `r = u + v` — node ids x=0,
u=1, v=2, r=3. -/
def c2dM (p : ℚ) : Machine :=
  let r0 := scalarInit p emptyM
  let r1 := scalarAdd r0.1 r0.1 r0.2
  let r2 := scalarMul r0.1 r0.1 r1.2
  let r3 := scalarAdd r1.1 r2.1 r2.2
  setGrad r3.1 1 (setGrad r0.1 0 r3.2)

/-- Claim C2 amended: the reconvergent gradient on `x` is correct exactly
when every interior node between `x` and the root still fires only once —
e.g. when the two applications fed by `x` are the two operands of the
root itself.  For `u = x + x`, `v = x * x`, `r = u + v` at any `x = p`,
one zero/seed/backward pass accumulates `x.grad = 2 + 2p`, the
analytically correct `∂r/∂x = ∂(2x + x²)/∂x` as computed by the forward
derivative `dval`.  In deeper reconvergence the cascade overcounts (see
the counterexample, 24 vs 8). -/
theorem claim_C2_amended (p : ℚ) :
    (backward (c2dM p).ops 4 3 (c2dM p)).1.grads 0 = 2 + 2 * p ∧
    dval (c2dM p).ops (c2dM p).vals 0 3 = 2 + 2 * p := by
  constructor
  · simp [c2dM, backward, opAt, addGrad, upd, scalarInit, scalarAdd,
      scalarMul, setGrad, emptyM]
    ring
  · simp [c2dM, dval, dvalB, opAt, upd, scalarInit, scalarAdd, scalarMul,
      setGrad, emptyM]
    ring

/-- Depth-2 chain: `x = Scalar(1)`, `c = Scalar(1)`, `u = x + c`,
`d = Scalar(1)`, `y = u + d` — node ids x=0, c=1, u=2, d=3, y=4; leaves
zeroed once, root seeded to 1. -/
def c8M : Machine :=
  let r0 := scalarInit 1 emptyM
  let r1 := scalarInit 1 r0.2
  let r2 := scalarAdd r0.1 r1.1 r1.2
  let r3 := scalarInit 1 r2.2
  let r4 := scalarAdd r2.1 r3.1 r3.2
  setGrad r4.1 1
    (setGrad r3.1 0 (setGrad r1.1 0 (setGrad r0.1 0 r4.2)))

/-- Counterexample to claim C8 as stated: calling `backward()` twice on an
unreset root does NOT leave every leaf's grad at exactly twice the
single-invocation value once the graph has depth ≥ 2 — the second pass
also re-propagates the stale interior gradient.  In the chain
`y = (x + c) + d`, a single pass gives `x.grad = 1`, but two passes give
`x.grad = 3`, not `2`. -/
theorem claim_C8_counterexample :
    (backward c8M.ops 5 4 c8M).1.grads 0 = 1 ∧
    (backward c8M.ops 5 4 (backward c8M.ops 5 4 c8M).1).1.grads 0 = 3 ∧
    ¬ (3 : ℚ) = 2 * 1 := by
  refine ⟨?_, ?_, by norm_num⟩ <;>
    norm_num [c8M, backward, opAt, addGrad, upd, scalarInit, scalarAdd,
      setGrad, emptyM]

/-- Depth-1 graph `y = Scalar(p) + Scalar(q)` under the zero/seed
protocol — node ids p=0, q=1, y=2. -/
def c8aM (p q : ℚ) : Machine :=
  let r0 := scalarInit p emptyM
  let r1 := scalarInit q r0.2
  let r2 := scalarAdd r0.1 r1.1 r1.2
  setGrad r2.1 1 (setGrad r1.1 0 (setGrad r0.1 0 r2.2))

/-- Depth-1 graph `y = Scalar(p) * Scalar(q)` under the zero/seed
protocol. -/
def c8mM (p q : ℚ) : Machine :=
  let r0 := scalarInit p emptyM
  let r1 := scalarInit q r0.2
  let r2 := scalarMul r0.1 r1.1 r1.2
  setGrad r2.1 1 (setGrad r1.1 0 (setGrad r0.1 0 r2.2))

/-- Claim C8 amended: double invocation of `backward()` on an unreset root
silently compounds the accumulated gradients and raises no error (the
embedding is total), and when the root's operands are leaf nodes — so no
stale interior gradient exists — every leaf's gradient after two passes is
exactly twice its single-pass value, for either operator and all operand
values; for deeper graphs the compounding can exceed twice (see the
counterexample, 3 vs 2). -/
theorem claim_C8_amended (p q : ℚ) :
    ((backward (c8aM p q).ops 3 2 ((backward (c8aM p q).ops 3 2 (c8aM p q)).1)).1.grads 0
       = 2 * ((backward (c8aM p q).ops 3 2 (c8aM p q)).1.grads 0)) ∧
    ((backward (c8aM p q).ops 3 2 ((backward (c8aM p q).ops 3 2 (c8aM p q)).1)).1.grads 1
       = 2 * ((backward (c8aM p q).ops 3 2 (c8aM p q)).1.grads 1)) ∧
    ((backward (c8mM p q).ops 3 2 ((backward (c8mM p q).ops 3 2 (c8mM p q)).1)).1.grads 0
       = 2 * ((backward (c8mM p q).ops 3 2 (c8mM p q)).1.grads 0)) ∧
    ((backward (c8mM p q).ops 3 2 ((backward (c8mM p q).ops 3 2 (c8mM p q)).1)).1.grads 1
       = 2 * ((backward (c8mM p q).ops 3 2 (c8mM p q)).1.grads 1)) := by
  refine ⟨?_, ?_, ?_, ?_⟩ <;>
    · simp [c8aM, c8mM, backward, opAt, addGrad, upd, scalarInit,
        scalarAdd, scalarMul, setGrad, emptyM]
      ring

/-- Tree in the sense of claim C9 (each non-root node is an operand of
exactly one operator application, here as both operands): `x = Scalar(1)`;
`u = x + x`; `y = u + u` — node ids x=0, u=1, y=2. -/
def c9M : Machine :=
  let r0 := scalarInit 1 emptyM
  let r1 := scalarAdd r0.1 r0.1 r0.2
  let r2 := scalarAdd r1.1 r1.1 r1.2
  setGrad r2.1 1 (setGrad r1.1 0 (setGrad r0.1 0 r2.2))

/-- Counterexample to claim C9 as stated: the graph `u = x + x`,
`y = u + u` is tree-shaped in the claim's sense — each node other than
the root `y` is an operand of exactly one operator application (as both
of its operands; `appCount` counts consuming applications) — yet after
the zero/seed/backward protocol `x.grad = 8`, while the partial derivative
of `y = 4x` with respect to `x` (the forward derivative `dval`) is `4`:
the interior node `u` fires twice, doubling everything below it. -/
theorem claim_C9_counterexample :
    (∀ j, j < 3 → ¬ j = 2 → appCount c9M.ops j = 1) ∧
    appCount c9M.ops 2 = 0 ∧
    Wf c9M.ops ∧
    (backward c9M.ops 3 2 c9M).1.grads 0 = 8 ∧
    dval c9M.ops c9M.vals 0 2 = 4 ∧
    ¬ (8 : ℚ) = 4 := by
  refine ⟨?_, ?_, ?_, ?_, ?_, by norm_num⟩
  · decide
  · decide
  · decide
  · norm_num [c9M, backward, opAt, addGrad, upd, scalarInit, scalarAdd,
      setGrad, emptyM]
  · norm_num [c9M, dval, dvalB, opAt, upd, scalarInit, scalarAdd, setGrad,
      emptyM]

/-! ### Reachability and forward-derivative infrastructure -/

theorem opAt_ge (g : List Op) (i : Nat) (h : g.length ≤ i) :
    opAt g i = Op.leaf :=
  List.getD_eq_default g Op.leaf h

/-- On a well-formed graph every operand index is smaller than its
consumer's index. -/
theorem wf_operand_lt {g : List Op} (hwf : Wf g) {i a : Nat}
    (ha : a ∈ operands (opAt g i)) : a < i := by
  by_cases hi : i < g.length
  · have h1 := (List.all_eq_true.mp hwf) i (List.mem_range.mpr hi)
    have h2 := (List.all_eq_true.mp h1) a ha
    exact of_decide_eq_true h2
  · rw [opAt_ge g i (Nat.le_of_not_lt hi)] at ha
    simp [operands] at ha

/-- A consumer with a nonempty operand list is an in-range node. -/
theorem operand_lt_length {g : List Op} {i a : Nat}
    (ha : a ∈ operands (opAt g i)) : i < g.length := by
  by_contra hi
  rw [opAt_ge g i (Nat.le_of_not_lt hi)] at ha
  simp [operands] at ha

theorem reachB_mono (g : List Op) :
    ∀ f f' i j, f ≤ f' → reachB g f i j = true → reachB g f' i j = true := by
  intro f
  induction f with
  | zero =>
    intro f' i j _ h
    simp only [reachB] at h
    cases f' with
    | zero => exact h
    | succ f'' => simp [reachB, h]
  | succ f ih =>
    intro f' i j hle h
    cases f' with
    | zero => exact absurd hle (by omega)
    | succ f'' =>
      simp only [reachB, Bool.or_eq_true, List.any_eq_true] at h ⊢
      rcases h with h | ⟨a, ha, hr⟩
      · exact Or.inl h
      · exact Or.inr ⟨a, ha, ih f'' a j (by omega) hr⟩

/-- On well-formed graphs, `reachB` is fuel-insensitive once the fuel
exceeds the start node. -/
theorem reachB_stable {g : List Op} (hwf : Wf g) :
    ∀ i, ∀ f, i < f → ∀ j, reachB g f i j = reachB g (i + 1) i j := by
  intro i
  induction i using Nat.strong_induction_on with
  | _ i ih =>
    intro f hf j
    cases f with
    | zero => omega
    | succ f' =>
      simp only [reachB, Bool.or_eq_true, List.any_eq_true]
      congr 1
      apply Bool.eq_iff_iff.mpr
      simp only [List.any_eq_true]
      constructor
      · rintro ⟨a, ha, hr⟩
        have hai : a < i := wf_operand_lt hwf ha
        refine ⟨a, ha, ?_⟩
        rw [ih a hai i (by omega) j]
        rw [ih a hai f' (by omega) j] at hr
        exact hr
      · rintro ⟨a, ha, hr⟩
        have hai : a < i := wf_operand_lt hwf ha
        refine ⟨a, ha, ?_⟩
        rw [ih a hai f' (by omega) j]
        rw [ih a hai i (by omega) j] at hr
        exact hr

theorem reach_self (g : List Op) (i : Nat) : Reach g i i := by
  simp [Reach, reachB]

theorem reach_step {g : List Op} (hwf : Wf g) {i a j : Nat}
    (ha : a ∈ operands (opAt g i)) (hr : Reach g a j) : Reach g i j := by
  have hai : a < i := wf_operand_lt hwf ha
  show reachB g (i + 1) i j = true
  simp only [reachB, Bool.or_eq_true, List.any_eq_true]
  exact Or.inr ⟨a, ha, by rw [reachB_stable hwf a i (by omega) j]; exact hr⟩

theorem reach_inv {g : List Op} (hwf : Wf g) {i j : Nat} (h : Reach g i j) :
    i = j ∨ ∃ a ∈ operands (opAt g i), Reach g a j := by
  have h' : reachB g (i + 1) i j = true := h
  simp only [reachB, Bool.or_eq_true, List.any_eq_true] at h'
  rcases h' with h' | ⟨a, ha, hr⟩
  · exact Or.inl (by simpa using h')
  · have hai : a < i := wf_operand_lt hwf ha
    refine Or.inr ⟨a, ha, ?_⟩
    rw [reachB_stable hwf a i (by omega) j] at hr
    exact hr

theorem reach_le {g : List Op} (hwf : Wf g) {i j : Nat} (h : Reach g i j) :
    j ≤ i := by
  induction i using Nat.strong_induction_on with
  | _ i ih =>
    rcases reach_inv hwf h with rfl | ⟨a, ha, hr⟩
    · exact Nat.le_refl i
    · have hai : a < i := wf_operand_lt hwf ha
      exact Nat.le_trans (ih a hai hr) (Nat.le_of_lt hai)

theorem reach_trans {g : List Op} (hwf : Wf g) {i j k : Nat}
    (h1 : Reach g i j) (h2 : Reach g j k) : Reach g i k := by
  induction i using Nat.strong_induction_on with
  | _ i ih =>
    rcases reach_inv hwf h1 with rfl | ⟨a, ha, hr⟩
    · exact h2
    · exact reach_step hwf ha (ih a (wf_operand_lt hwf ha) hr)

theorem dvalB_succ_self {g : List Op} (v : Nat → ℚ) {n i : Nat} (f : Nat)
    (h : i = n) : dvalB g v n (f + 1) i = 1 := by
  simp only [dvalB, if_pos h]

theorem dvalB_succ_leaf {g : List Op} (v : Nat → ℚ) {n i : Nat} (f : Nat)
    (hop : opAt g i = Op.leaf) (h : ¬ i = n) : dvalB g v n (f + 1) i = 0 := by
  simp only [dvalB, if_neg h, hop]

theorem dvalB_succ_add {g : List Op} (v : Nat → ℚ) {n i a b : Nat} (f : Nat)
    (hop : opAt g i = Op.add a b) (h : ¬ i = n) :
    dvalB g v n (f + 1) i = dvalB g v n f a + dvalB g v n f b := by
  simp only [dvalB, if_neg h, hop]

theorem dvalB_succ_mul {g : List Op} (v : Nat → ℚ) {n i a b : Nat} (f : Nat)
    (hop : opAt g i = Op.mul a b) (h : ¬ i = n) :
    dvalB g v n (f + 1) i = v b * dvalB g v n f a + v a * dvalB g v n f b := by
  simp only [dvalB, if_neg h, hop]

theorem opAt_mem_add {g : List Op} {i a b : Nat} (hop : opAt g i = Op.add a b) :
    a ∈ operands (opAt g i) ∧ b ∈ operands (opAt g i) := by
  rw [hop]; simp [operands]

theorem opAt_mem_mul {g : List Op} {i a b : Nat} (hop : opAt g i = Op.mul a b) :
    a ∈ operands (opAt g i) ∧ b ∈ operands (opAt g i) := by
  rw [hop]; simp [operands]

/-- On well-formed graphs, `dvalB` is fuel-insensitive once the fuel
exceeds the node. -/
theorem dvalB_stable {g : List Op} (hwf : Wf g) (v : Nat → ℚ) (n : Nat) :
    ∀ i, ∀ f, i < f → dvalB g v n f i = dval g v n i := by
  intro i
  induction i using Nat.strong_induction_on with
  | _ i ih =>
    intro f hf
    cases f with
    | zero => omega
    | succ f' =>
      show dvalB g v n (f' + 1) i = dvalB g v n (i + 1) i
      by_cases hn : i = n
      · rw [dvalB_succ_self v f' hn, dvalB_succ_self v i hn]
      cases hop : opAt g i with
      | leaf => rw [dvalB_succ_leaf v f' hop hn, dvalB_succ_leaf v i hop hn]
      | add a b =>
        have haa : a < i := wf_operand_lt hwf (opAt_mem_add hop).1
        have hbb : b < i := wf_operand_lt hwf (opAt_mem_add hop).2
        rw [dvalB_succ_add v f' hop hn, dvalB_succ_add v i hop hn,
            ih a haa f' (by omega), ih a haa i (by omega),
            ih b hbb f' (by omega), ih b hbb i (by omega)]
      | mul a b =>
        have haa : a < i := wf_operand_lt hwf (opAt_mem_mul hop).1
        have hbb : b < i := wf_operand_lt hwf (opAt_mem_mul hop).2
        rw [dvalB_succ_mul v f' hop hn, dvalB_succ_mul v i hop hn,
            ih a haa f' (by omega), ih a haa i (by omega),
            ih b hbb f' (by omega), ih b hbb i (by omega)]

theorem dval_self (g : List Op) (v : Nat → ℚ) (n : Nat) :
    dval g v n n = 1 := by
  show dvalB g v n (n + 1) n = 1
  exact dvalB_succ_self v n rfl

theorem dval_add {g : List Op} (hwf : Wf g) (v : Nat → ℚ) {n i a b : Nat}
    (hop : opAt g i = Op.add a b) (h : ¬ i = n) :
    dval g v n i = dval g v n a + dval g v n b := by
  have haa : a < i := wf_operand_lt hwf (opAt_mem_add hop).1
  have hbb : b < i := wf_operand_lt hwf (opAt_mem_add hop).2
  show dvalB g v n (i + 1) i = _
  rw [dvalB_succ_add v i hop h, dvalB_stable hwf v n a i (by omega),
      dvalB_stable hwf v n b i (by omega)]

theorem dval_mul {g : List Op} (hwf : Wf g) (v : Nat → ℚ) {n i a b : Nat}
    (hop : opAt g i = Op.mul a b) (h : ¬ i = n) :
    dval g v n i = v b * dval g v n a + v a * dval g v n b := by
  have haa : a < i := wf_operand_lt hwf (opAt_mem_mul hop).1
  have hbb : b < i := wf_operand_lt hwf (opAt_mem_mul hop).2
  show dvalB g v n (i + 1) i = _
  rw [dvalB_succ_mul v i hop h, dvalB_stable hwf v n a i (by omega),
      dvalB_stable hwf v n b i (by omega)]

theorem dval_leaf {g : List Op} (v : Nat → ℚ) {n i : Nat}
    (hop : opAt g i = Op.leaf) (h : ¬ i = n) : dval g v n i = 0 :=
  dvalB_succ_leaf v i hop h

/-- A node's value does not depend on nodes it cannot reach. -/
theorem dval_unreach {g : List Op} (hwf : Wf g) (v : Nat → ℚ) {n i : Nat}
    (h : ¬ Reach g i n) : dval g v n i = 0 := by
  induction i using Nat.strong_induction_on with
  | _ i ih =>
    have hn : ¬ i = n := fun he => h (by rw [he]; exact reach_self g n)
    cases hop : opAt g i with
    | leaf => exact dval_leaf v hop hn
    | add a b =>
      have haa := (opAt_mem_add hop).1
      have hbb := (opAt_mem_add hop).2
      rw [dval_add hwf v hop hn,
          ih a (wf_operand_lt hwf haa) (fun hr => h (reach_step hwf haa hr)),
          ih b (wf_operand_lt hwf hbb) (fun hr => h (reach_step hwf hbb hr))]
      ring
    | mul a b =>
      have haa := (opAt_mem_mul hop).1
      have hbb := (opAt_mem_mul hop).2
      rw [dval_mul hwf v hop hn,
          ih a (wf_operand_lt hwf haa) (fun hr => h (reach_step hwf haa hr)),
          ih b (wf_operand_lt hwf hbb) (fun hr => h (reach_step hwf hbb hr))]
      ring

/-- A node's value does not depend on later-created nodes. -/
theorem dval_high {g : List Op} (hwf : Wf g) (v : Nat → ℚ) {n i : Nat}
    (h : i < n) : dval g v n i = 0 :=
  dval_unreach hwf v (fun hr => absurd (reach_le hwf hr) (by omega))

/-! ### Frame lemma: a backward pass only writes proper descendants -/

/-- `j` is a proper descendant of `i`: reachable from one of `i`'s
operands. -/
def PD (g : List Op) (i j : Nat) : Prop :=
  ∃ a ∈ operands (opAt g i), Reach g a j

theorem pd_reach {g : List Op} (hwf : Wf g) {i j : Nat} (h : PD g i j) :
    Reach g i j := by
  obtain ⟨a, ha, hr⟩ := h
  exact reach_step hwf ha hr

theorem pd_lt {g : List Op} (hwf : Wf g) {i j : Nat} (h : PD g i j) :
    j < i := by
  obtain ⟨a, ha, hr⟩ := h
  exact Nat.lt_of_le_of_lt (reach_le hwf hr) (wf_operand_lt hwf ha)

theorem not_pd_self {g : List Op} (hwf : Wf g) (i : Nat) : ¬ PD g i i :=
  fun h => absurd (pd_lt hwf h) (by omega)

theorem reach_pd {g : List Op} (hwf : Wf g) {i j : Nat} (h : Reach g i j)
    (hne : ¬ i = j) : PD g i j := by
  rcases reach_inv hwf h with rfl | ⟨a, ha, hr⟩
  · exact absurd rfl hne
  · exact ⟨a, ha, hr⟩

theorem pd_step {g : List Op} (hwf : Wf g) {i a j : Nat}
    (ha : a ∈ operands (opAt g i)) (h : PD g a j) : PD g i j :=
  ⟨a, ha, pd_reach hwf h⟩

theorem addGrad_grads (j : Nat) (x : ℚ) (m : Machine) (k : Nat) :
    (addGrad j x m).grads k = if k = j then m.grads j + x else m.grads k :=
  rfl

theorem backward_succ_leaf {g : List Op} {i : Nat} (f : Nat) (m : Machine)
    (hop : opAt g i = Op.leaf) : backward g (f + 1) i m = (m, []) := by
  simp only [backward, hop]

theorem backward_succ_add {g : List Op} {i a b : Nat} (f : Nat) (m : Machine)
    (hop : opAt g i = Op.add a b) :
    backward g (f + 1) i m =
      ((backward g f b
          (backward g f a (addGrad b (m.grads i) (addGrad a (m.grads i) m))).1).1,
       (i, m.grads i) ::
         ((backward g f a (addGrad b (m.grads i) (addGrad a (m.grads i) m))).2 ++
          (backward g f b
            (backward g f a (addGrad b (m.grads i) (addGrad a (m.grads i) m))).1).2)) := by
  simp only [backward, hop]

theorem backward_succ_mul {g : List Op} {i a b : Nat} (f : Nat) (m : Machine)
    (hop : opAt g i = Op.mul a b) :
    backward g (f + 1) i m =
      ((backward g f b
          (backward g f a
            (addGrad b (m.vals a * m.grads i) (addGrad a (m.vals b * m.grads i) m))).1).1,
       (i, m.grads i) ::
         ((backward g f a
            (addGrad b (m.vals a * m.grads i) (addGrad a (m.vals b * m.grads i) m))).2 ++
          (backward g f b
            (backward g f a
              (addGrad b (m.vals a * m.grads i) (addGrad a (m.vals b * m.grads i) m))).1).2)) := by
  simp only [backward, hop]

/-- A backward pass started at `i` only writes the gradients of proper
descendants of `i`. -/
theorem backward_frame {g : List Op} (hwf : Wf g) :
    ∀ (f i : Nat) (m : Machine) (j : Nat), ¬ PD g i j →
      (backward g f i m).1.grads j = m.grads j := by
  intro f
  induction f with
  | zero => intro i m j _; rfl
  | succ f ih =>
    intro i m j hj
    cases hop : opAt g i with
    | leaf => rw [backward_succ_leaf f m hop]
    | add a b =>
      have ha := (opAt_mem_add hop).1
      have hb := (opAt_mem_add hop).2
      have hja : ¬ j = a := fun he => hj ⟨a, ha, he ▸ reach_self g j⟩
      have hjb : ¬ j = b := fun he => hj ⟨b, hb, he ▸ reach_self g j⟩
      have hpa : ¬ PD g a j := fun h => hj (pd_step hwf ha h)
      have hpb : ¬ PD g b j := fun h => hj (pd_step hwf hb h)
      rw [backward_succ_add f m hop]
      show (backward g f b _).1.grads j = m.grads j
      rw [ih b _ j hpb, ih a _ j hpa, addGrad_grads, if_neg hjb,
          addGrad_grads, if_neg hja]
    | mul a b =>
      have ha := (opAt_mem_mul hop).1
      have hb := (opAt_mem_mul hop).2
      have hja : ¬ j = a := fun he => hj ⟨a, ha, he ▸ reach_self g j⟩
      have hjb : ¬ j = b := fun he => hj ⟨b, hb, he ▸ reach_self g j⟩
      have hpa : ¬ PD g a j := fun h => hj (pd_step hwf ha h)
      have hpb : ¬ PD g b j := fun h => hj (pd_step hwf hb h)
      rw [backward_succ_mul f m hop]
      show (backward g f b _).1.grads j = m.grads j
      rw [ih b _ j hpb, ih a _ j hpa, addGrad_grads, if_neg hjb,
          addGrad_grads, if_neg hja]

/-! ### Correctness of the eager cascade on trees -/

/-- Every interior node reachable from `i` has disjoint operand subtrees:
below `i` the expression graph is a tree (no node is shared by two
operand slots, siblings or not). -/
def GT (g : List Op) (i : Nat) : Prop :=
  ∀ x a b, Reach g i x →
    (opAt g x = Op.add a b ∨ opAt g x = Op.mul a b) →
    ∀ j, Reach g a j → Reach g b j → False

theorem gt_sub {g : List Op} (hwf : Wf g) {i a : Nat} (hgt : GT g i)
    (ha : a ∈ operands (opAt g i)) : GT g a :=
  fun x a' b' hx hop j h1 h2 =>
    hgt x a' b' (reach_step hwf ha hx) hop j h1 h2

/-- The heart of claim C9: on a tree, a backward pass started at `i` with
all proper descendants' gradients zeroed multiplies `i`'s own current
gradient into every proper descendant by the exact partial derivative. -/
theorem tree_run {g : List Op} (hwf : Wf g) :
    ∀ (f i : Nat) (m : Machine), i < f → GT g i →
      (∀ j, PD g i j → m.grads j = 0) →
      ∀ j, PD g i j →
        (backward g f i m).1.grads j = m.grads i * dval g m.vals j i := by
  intro f
  induction f with
  | zero => intro i m hf _ _ j _; omega
  | succ f ih =>
    intro i m hf hgt hzero j hj
    cases hop : opAt g i with
    | leaf =>
      obtain ⟨a, ha, _⟩ := hj
      rw [hop] at ha
      simp [operands] at ha
    | add a b =>
      have ha := (opAt_mem_add hop).1
      have hb := (opAt_mem_add hop).2
      have haw : a < i := wf_operand_lt hwf ha
      have hbw : b < i := wf_operand_lt hwf hb
      have disj : ∀ j, Reach g a j → Reach g b j → False :=
        fun j h1 h2 => hgt i a b (reach_self g i) (Or.inl hop) j h1 h2
      set gr := m.grads i with hgr
      set m2 := addGrad b gr (addGrad a gr m) with hm2
      have hvals2 : m2.vals = m.vals := rfl
      have hne : ¬ a = b := fun he =>
        disj a (reach_self g a) (he ▸ reach_self g a)
      have hg2 : ∀ k, m2.grads k =
          if k = b then m.grads b + gr else if k = a then m.grads a + gr
          else m.grads k := by
        intro k
        rw [hm2, addGrad_grads, addGrad_grads, addGrad_grads]
        by_cases hkb : k = b
        · rw [if_pos hkb, if_pos hkb, if_neg (by omega : ¬ b = a)]
        · rw [if_neg hkb, if_neg hkb]
      have hg2a : m2.grads a = gr := by
        rw [hg2, if_neg hne, if_pos rfl, hzero a ⟨a, ha, reach_self g a⟩]
        ring
      have hg2b : m2.grads b = gr := by
        rw [hg2, if_pos rfl, hzero b ⟨b, hb, reach_self g b⟩]
        ring
      have hnpa : ∀ k, PD g a k → ¬ k = a ∧ ¬ k = b ∧ ¬ PD g b k := by
        intro k hk
        have hrk : Reach g a k := pd_reach hwf hk
        refine ⟨?_, ?_, ?_⟩
        · intro he; rw [he] at hk; exact not_pd_self hwf a hk
        · intro he; exact disj k hrk (he ▸ reach_self g k)
        · intro hpb; exact disj k hrk (pd_reach hwf hpb)
      have hnpb : ∀ k, PD g b k → ¬ k = a ∧ ¬ k = b ∧ ¬ PD g a k := by
        intro k hk
        have hrk : Reach g b k := pd_reach hwf hk
        refine ⟨?_, ?_, ?_⟩
        · intro he; exact disj k (he ▸ reach_self g k) hrk
        · intro he; rw [he] at hk; exact not_pd_self hwf b hk
        · intro hpa; exact disj k (pd_reach hwf hpa) hrk
      set r1 := backward g f a m2 with hr1
      have hvals3 : r1.1.vals = m.vals := by
        rw [hr1, backward_vals]; exact hvals2
      have hiha : ∀ k, PD g a k →
          r1.1.grads k = gr * dval g m.vals k a := by
        intro k hk
        rw [hr1]
        rw [ih a m2 (by omega) (gt_sub hwf hgt ha) ?_ k hk, hg2a, hvals2]
        intro k' hk'
        obtain ⟨hka, hkb, _⟩ := hnpa k' hk'
        rw [hg2, if_neg hkb, if_neg hka]
        exact hzero k' (pd_step hwf ha hk')
      have hg3 : ∀ k, ¬ PD g a k → r1.1.grads k = m2.grads k := by
        intro k hk; rw [hr1, backward_frame hwf f a m2 k hk]
      have hg3a : r1.1.grads a = gr := by
        rw [hg3 a (not_pd_self hwf a), hg2a]
      have hg3b : r1.1.grads b = gr := by
        rw [hg3 b fun hpa => disj b (pd_reach hwf hpa) (reach_self g b), hg2b]
      set r2 := backward g f b r1.1 with hr2
      have hihb : ∀ k, PD g b k →
          r2.1.grads k = gr * dval g m.vals k b := by
        intro k hk
        rw [hr2]
        rw [ih b r1.1 (by omega) (gt_sub hwf hgt hb) ?_ k hk, hg3b, hvals3]
        intro k' hk'
        obtain ⟨hka, hkb, hnpa'⟩ := hnpb k' hk'
        rw [hg3 k' hnpa', hg2, if_neg hkb, if_neg hka]
        exact hzero k' (pd_step hwf hb hk')
      have hg4 : ∀ k, ¬ PD g b k → r2.1.grads k = r1.1.grads k := by
        intro k hk; rw [hr2, backward_frame hwf f b r1.1 k hk]
      have hfin : (backward g (f + 1) i m).1.grads j = r2.1.grads j := by
        rw [backward_succ_add f m hop]
      rw [hfin]
      have hdj : dval g m.vals j i = dval g m.vals j a + dval g m.vals j b := by
        refine dval_add hwf m.vals hop ?_
        intro he; rw [he] at hj; exact not_pd_self hwf j hj
      obtain ⟨x, hx, hrx⟩ := hj
      have hxab : x = a ∨ x = b := by
        rw [hop] at hx; simpa [operands] using hx
      have hcase : Reach g a j ∨ Reach g b j := by
        rcases hxab with rfl | rfl
        · exact Or.inl hrx
        · exact Or.inr hrx
      rcases hcase with hra | hrb
      · by_cases hja : j = a
        · subst hja
          rw [hg4 j fun hpb => (hnpb j hpb).1 rfl, hg3a, hdj,
              dval_self, dval_unreach hwf m.vals
                (fun hr => disj j (reach_self g j) hr)]
          ring
        · have hpa : PD g a j := reach_pd hwf hra fun he => hja he.symm
          rw [hg4 j fun hpb => (hnpb j hpb).2.2 hpa, hiha j hpa, hdj,
              dval_unreach hwf m.vals (fun hr => disj j hra hr)]
          ring
      · by_cases hjb : j = b
        · subst hjb
          rw [hg4 j (not_pd_self hwf j), hg3b, hdj, dval_self,
              dval_unreach hwf m.vals (fun hr => disj j hr (reach_self g j))]
          ring
        · have hpb : PD g b j := reach_pd hwf hrb fun he => hjb he.symm
          rw [hihb j hpb, hdj,
              dval_unreach hwf m.vals (fun hr => disj j hr hrb)]
          ring
    | mul a b =>
      have ha := (opAt_mem_mul hop).1
      have hb := (opAt_mem_mul hop).2
      have haw : a < i := wf_operand_lt hwf ha
      have hbw : b < i := wf_operand_lt hwf hb
      have disj : ∀ j, Reach g a j → Reach g b j → False :=
        fun j h1 h2 => hgt i a b (reach_self g i) (Or.inr hop) j h1 h2
      set gr := m.grads i with hgr
      set m2 := addGrad b (m.vals a * gr) (addGrad a (m.vals b * gr) m) with hm2
      have hvals2 : m2.vals = m.vals := rfl
      have hne : ¬ a = b := fun he =>
        disj a (reach_self g a) (he ▸ reach_self g a)
      have hg2 : ∀ k, m2.grads k =
          if k = b then m.grads b + m.vals a * gr
          else if k = a then m.grads a + m.vals b * gr
          else m.grads k := by
        intro k
        rw [hm2, addGrad_grads, addGrad_grads, addGrad_grads]
        by_cases hkb : k = b
        · rw [if_pos hkb, if_pos hkb, if_neg (by omega : ¬ b = a)]
        · rw [if_neg hkb, if_neg hkb]
      have hg2a : m2.grads a = m.vals b * gr := by
        rw [hg2, if_neg hne, if_pos rfl, hzero a ⟨a, ha, reach_self g a⟩]
        ring
      have hg2b : m2.grads b = m.vals a * gr := by
        rw [hg2, if_pos rfl, hzero b ⟨b, hb, reach_self g b⟩]
        ring
      have hnpa : ∀ k, PD g a k → ¬ k = a ∧ ¬ k = b ∧ ¬ PD g b k := by
        intro k hk
        have hrk : Reach g a k := pd_reach hwf hk
        refine ⟨?_, ?_, ?_⟩
        · intro he; rw [he] at hk; exact not_pd_self hwf a hk
        · intro he; exact disj k hrk (he ▸ reach_self g k)
        · intro hpb; exact disj k hrk (pd_reach hwf hpb)
      have hnpb : ∀ k, PD g b k → ¬ k = a ∧ ¬ k = b ∧ ¬ PD g a k := by
        intro k hk
        have hrk : Reach g b k := pd_reach hwf hk
        refine ⟨?_, ?_, ?_⟩
        · intro he; exact disj k (he ▸ reach_self g k) hrk
        · intro he; rw [he] at hk; exact not_pd_self hwf b hk
        · intro hpa; exact disj k (pd_reach hwf hpa) hrk
      set r1 := backward g f a m2 with hr1
      have hvals3 : r1.1.vals = m.vals := by
        rw [hr1, backward_vals]; exact hvals2
      have hiha : ∀ k, PD g a k →
          r1.1.grads k = m.vals b * gr * dval g m.vals k a := by
        intro k hk
        rw [hr1]
        rw [ih a m2 (by omega) (gt_sub hwf hgt ha) ?_ k hk, hg2a, hvals2]
        intro k' hk'
        obtain ⟨hka, hkb, _⟩ := hnpa k' hk'
        rw [hg2, if_neg hkb, if_neg hka]
        exact hzero k' (pd_step hwf ha hk')
      have hg3 : ∀ k, ¬ PD g a k → r1.1.grads k = m2.grads k := by
        intro k hk; rw [hr1, backward_frame hwf f a m2 k hk]
      have hg3a : r1.1.grads a = m.vals b * gr := by
        rw [hg3 a (not_pd_self hwf a), hg2a]
      have hg3b : r1.1.grads b = m.vals a * gr := by
        rw [hg3 b fun hpa => disj b (pd_reach hwf hpa) (reach_self g b), hg2b]
      set r2 := backward g f b r1.1 with hr2
      have hihb : ∀ k, PD g b k →
          r2.1.grads k = m.vals a * gr * dval g m.vals k b := by
        intro k hk
        rw [hr2]
        rw [ih b r1.1 (by omega) (gt_sub hwf hgt hb) ?_ k hk, hg3b, hvals3]
        intro k' hk'
        obtain ⟨hka, hkb, hnpa'⟩ := hnpb k' hk'
        rw [hg3 k' hnpa', hg2, if_neg hkb, if_neg hka]
        exact hzero k' (pd_step hwf hb hk')
      have hg4 : ∀ k, ¬ PD g b k → r2.1.grads k = r1.1.grads k := by
        intro k hk; rw [hr2, backward_frame hwf f b r1.1 k hk]
      have hfin : (backward g (f + 1) i m).1.grads j = r2.1.grads j := by
        rw [backward_succ_mul f m hop]
      rw [hfin]
      have hdj : dval g m.vals j i =
          m.vals b * dval g m.vals j a + m.vals a * dval g m.vals j b := by
        refine dval_mul hwf m.vals hop ?_
        intro he; rw [he] at hj; exact not_pd_self hwf j hj
      obtain ⟨x, hx, hrx⟩ := hj
      have hxab : x = a ∨ x = b := by
        rw [hop] at hx; simpa [operands] using hx
      have hcase : Reach g a j ∨ Reach g b j := by
        rcases hxab with rfl | rfl
        · exact Or.inl hrx
        · exact Or.inr hrx
      rcases hcase with hra | hrb
      · by_cases hja : j = a
        · subst hja
          rw [hg4 j fun hpb => (hnpb j hpb).1 rfl, hg3a, hdj,
              dval_self, dval_unreach hwf m.vals
                (fun hr => disj j (reach_self g j) hr)]
          ring
        · have hpa : PD g a j := reach_pd hwf hra fun he => hja he.symm
          rw [hg4 j fun hpb => (hnpb j hpb).2.2 hpa, hiha j hpa, hdj,
              dval_unreach hwf m.vals (fun hr => disj j hra hr)]
          ring
      · by_cases hjb : j = b
        · subst hjb
          rw [hg4 j (not_pd_self hwf j), hg3b, hdj, dval_self,
              dval_unreach hwf m.vals (fun hr => disj j hr (reach_self g j))]
          ring
        · have hpb : PD g b j := reach_pd hwf hrb fun he => hjb he.symm
          rw [hihb j hpb, hdj,
              dval_unreach hwf m.vals (fun hr => disj j hr hrb)]
          ring

/-! ### From occurrence counts to tree shape -/

/-- `occ` as a `Finset` sum. -/
theorem occ_eq_sum (g : List Op) (j : Nat) :
    occ g j = ∑ i in Finset.range g.length,
      ((operands (opAt g i)).filter fun a => a = j).length := rfl

theorem occ_pos_of_operand {g : List Op} {j c : Nat}
    (hc : j ∈ operands (opAt g c)) :
    1 ≤ ((operands (opAt g c)).filter fun a => a = j).length := by
  have : j ∈ (operands (opAt g c)).filter fun a => a = j :=
    List.mem_filter.mpr ⟨hc, by simp⟩
  exact List.length_pos.mpr (fun he => by simp [he] at this)

/-- A node consumed anywhere at all has positive occurrence count. -/
theorem occ_pos {g : List Op} {j c : Nat} (hc : j ∈ operands (opAt g c)) :
    1 ≤ occ g j := by
  have hlen : c < g.length := operand_lt_length hc
  rw [occ_eq_sum]
  have hs := @Finset.single_le_sum Nat Nat _
    (fun i => ((operands (opAt g i)).filter fun a => a = j).length)
    (Finset.range g.length) (fun i _ => Nat.zero_le _) c
    (Finset.mem_range.mpr hlen)
  exact Nat.le_trans (occ_pos_of_operand hc) hs

/-- With at most one occurrence, the consuming application is unique. -/
theorem occ_unique {g : List Op} {j c1 c2 : Nat} (hocc : occ g j ≤ 1)
    (h1 : j ∈ operands (opAt g c1)) (h2 : j ∈ operands (opAt g c2)) :
    c1 = c2 := by
  by_contra hne
  have hl1 : c1 < g.length := operand_lt_length h1
  have hl2 : c2 < g.length := operand_lt_length h2
  have hsub : ({c1, c2} : Finset Nat) ⊆ Finset.range g.length := by
    intro x hx
    rcases Finset.mem_insert.mp hx with rfl | hx
    · exact Finset.mem_range.mpr hl1
    · rw [Finset.mem_singleton.mp hx]; exact Finset.mem_range.mpr hl2
  have hpair : ∑ x in ({c1, c2} : Finset Nat),
      ((operands (opAt g x)).filter fun a => a = j).length =
      ((operands (opAt g c1)).filter fun a => a = j).length +
      ((operands (opAt g c2)).filter fun a => a = j).length :=
    Finset.sum_pair hne
  have h2le : 2 ≤ occ g j := by
    rw [occ_eq_sum]
    calc (2 : Nat) ≤
        ((operands (opAt g c1)).filter fun a => a = j).length +
        ((operands (opAt g c2)).filter fun a => a = j).length :=
          Nat.add_le_add (occ_pos_of_operand h1) (occ_pos_of_operand h2)
      _ = ∑ x in ({c1, c2} : Finset Nat),
            ((operands (opAt g x)).filter fun a => a = j).length :=
          hpair.symm
      _ ≤ _ := Finset.sum_le_sum_of_subset hsub
  omega

/-- With at most one occurrence, a node cannot fill both slots of one
application. -/
theorem occ_not_both {g : List Op} {j c : Nat} (hocc : occ g j ≤ 1)
    (hop : opAt g c = Op.add j j ∨ opAt g c = Op.mul j j) : False := by
  have hfil : ((operands (opAt g c)).filter fun a => a = j).length = 2 := by
    rcases hop with hop | hop <;> rw [hop] <;> simp [operands]
  have hlen : c < g.length := by
    refine operand_lt_length (a := j) ?_
    rcases hop with hop | hop <;> rw [hop] <;> simp [operands]
  have h2le : 2 ≤ occ g j := by
    rw [occ_eq_sum, ← hfil]
    exact @Finset.single_le_sum Nat Nat _
      (fun i => ((operands (opAt g i)).filter fun a => a = j).length)
      (Finset.range g.length) (fun i _ => Nat.zero_le _) c
      (Finset.mem_range.mpr hlen)
  omega

/-- Positive occurrence count yields a consumer. -/
theorem occ_consumer {g : List Op} {j : Nat} (h : 1 ≤ occ g j) :
    ∃ c, j ∈ operands (opAt g c) := by
  by_contra hnone
  push_neg at hnone
  have : occ g j = 0 := by
    rw [occ_eq_sum]
    refine Finset.sum_eq_zero fun c _ => ?_
    rw [List.length_eq_zero]
    refine List.filter_eq_nil_iff.mpr fun a ha => ?_
    simp only [decide_eq_true_eq]
    intro he
    exact hnone c (he ▸ ha)
  omega

/-- Every strict ancestor chain passes through a consumer of the node. -/
theorem reach_parent {g : List Op} (hwf : Wf g) {x j : Nat}
    (h : Reach g x j) (hne : ¬ x = j) :
    ∃ c, j ∈ operands (opAt g c) ∧ Reach g x c := by
  induction x using Nat.strong_induction_on with
  | _ x ih =>
    rcases reach_inv hwf h with rfl | ⟨a, ha, hr⟩
    · exact absurd rfl hne
    · by_cases haj : a = j
      · exact ⟨x, haj ▸ ha, reach_self g x⟩
      · obtain ⟨c, hc, hrc⟩ := ih a (wf_operand_lt hwf ha) hr haj
        exact ⟨c, hc, reach_step hwf ha hrc⟩

/-- When every node has a unique consumer, two ancestors of a common node
are comparable under reachability. -/
theorem reach_converge {g : List Op} (hwf : Wf g)
    (huniq : ∀ k c1 c2, k ∈ operands (opAt g c1) →
      k ∈ operands (opAt g c2) → c1 = c2) :
    ∀ (d j a b : Nat), g.length - j ≤ d → Reach g a j → Reach g b j →
      Reach g a b ∨ Reach g b a := by
  intro d
  induction d with
  | zero =>
    intro j a b hd hra hrb
    by_cases haj : a = j
    · exact Or.inr (haj ▸ hrb)
    by_cases hbj : b = j
    · exact Or.inl (hbj ▸ hra)
    obtain ⟨c, hc, _⟩ := reach_parent hwf hra haj
    have := wf_operand_lt hwf hc
    have := operand_lt_length hc
    omega
  | succ d ih =>
    intro j a b hd hra hrb
    by_cases haj : a = j
    · exact Or.inr (haj ▸ hrb)
    by_cases hbj : b = j
    · exact Or.inl (hbj ▸ hra)
    obtain ⟨c1, hc1, hrc1⟩ := reach_parent hwf hra haj
    obtain ⟨c2, hc2, hrc2⟩ := reach_parent hwf hrb hbj
    have hcc : c1 = c2 := huniq j c1 c2 hc1 hc2
    subst hcc
    have hjc : j < c1 := wf_operand_lt hwf hc1
    have hcl : c1 < g.length := operand_lt_length hc1
    exact ih c1 a b (by omega) hrc1 hrc2

/-- The tree conditions of claim C9 give disjoint operand subtrees
everywhere. -/
theorem occ_gt {g : List Op} (hwf : Wf g) {root : Nat}
    (hocc1 : ∀ j, j < g.length → ¬ j = root → occ g j = 1)
    (hocc0 : occ g root = 0) : GT g root := by
  have hocc_le : ∀ j c, j ∈ operands (opAt g c) → occ g j ≤ 1 := by
    intro j c hc
    have hj : j < g.length :=
      Nat.lt_trans (wf_operand_lt hwf hc) (operand_lt_length hc)
    by_cases hjr : j = root
    · subst hjr; omega
    · rw [hocc1 j hj hjr]
  have huniq : ∀ k c1 c2, k ∈ operands (opAt g c1) →
      k ∈ operands (opAt g c2) → c1 = c2 :=
    fun k c1 c2 h1 h2 => occ_unique (hocc_le k c1 h1) h1 h2
  intro x a b hx hop j hra hrb
  have hain : a ∈ operands (opAt g x) := by
    rcases hop with hop | hop
    · exact (opAt_mem_add hop).1
    · exact (opAt_mem_mul hop).1
  have hbin : b ∈ operands (opAt g x) := by
    rcases hop with hop | hop
    · exact (opAt_mem_add hop).2
    · exact (opAt_mem_mul hop).2
  by_cases hab : a = b
  · subst hab
    exact occ_not_both (hocc_le a x hain) hop
  · rcases reach_converge hwf huniq g.length j a b (by omega) hra hrb with
      hr | hr
    · obtain ⟨c, hc, hrc⟩ := reach_parent hwf hr hab
      have hcx : c = x := huniq b c x hc hbin
      subst hcx
      have h1 : c ≤ a := reach_le hwf hrc
      have h2 : a < c := wf_operand_lt hwf hain
      omega
    · obtain ⟨c, hc, hrc⟩ := reach_parent hwf hr fun he => hab he.symm
      have hcx : c = x := huniq a c x hc hain
      subst hcx
      have h1 : c ≤ b := reach_le hwf hrc
      have h2 : b < c := wf_operand_lt hwf hbin
      omega

/-- Under the claim-C9 occurrence conditions every node is reachable from
the root. -/
theorem occ_reach_root {g : List Op} (hwf : Wf g) {root : Nat}
    (hocc1 : ∀ j, j < g.length → ¬ j = root → occ g j = 1) :
    ∀ (d n : Nat), g.length - n ≤ d → n < g.length → Reach g root n := by
  intro d
  induction d with
  | zero => intro n hd hn; omega
  | succ d ih =>
    intro n hd hn
    by_cases hnr : n = root
    · exact hnr ▸ reach_self g root
    · have h1 : 1 ≤ occ g n := by rw [hocc1 n hn hnr]
      obtain ⟨c, hc⟩ := occ_consumer h1
      have hnc : n < c := wf_operand_lt hwf hc
      have hcl : c < g.length := operand_lt_length hc
      have hrc : Reach g root c := ih c (by omega) hcl
      exact reach_trans hwf hrc (reach_step hwf hc (reach_self g n))

/-- Claim C9 amended: the eager cascade is exactly correct on proper
trees.  For every well-formed graph in which each node other than the
root occurs exactly once as an operand (counting slots — this excludes
`x + x`, which the counterexample shows breaks correctness when `x` is an
interior node) and the root is consumed by nothing, zeroing all
gradients, seeding the root's gradient to 1 and running
`root.backward()` leaves every node's gradient equal to the exact partial
derivative `dval` of the root's value with respect to that node's value,
with no further precondition. -/
theorem claim_C9_amended (g : List Op) (root : Nat) (m : Machine)
    (hwf : Wf g) (hroot : root < g.length)
    (hocc1 : ∀ j, j < g.length → ¬ j = root → occ g j = 1)
    (hocc0 : occ g root = 0)
    (hseed : m.grads root = 1)
    (hzero : ∀ j, ¬ j = root → m.grads j = 0) :
    ∀ n, n < g.length →
      (backward g (root + 1) root m).1.grads n = dval g m.vals n root := by
  intro n hn
  by_cases hnr : n = root
  · subst hnr
    rw [backward_frame hwf (n + 1) n m n (not_pd_self hwf n), hseed,
        dval_self]
  · have hreach : Reach g root n :=
      occ_reach_root hwf hocc1 g.length n (by omega) hn
    have hpd : PD g root n := reach_pd hwf hreach fun he => hnr he.symm
    have hz : ∀ j, PD g root j → m.grads j = 0 := fun j hj =>
      hzero j fun he => absurd (he ▸ pd_lt hwf hj) (by omega)
    rw [tree_run hwf (root + 1) root m (by omega) (occ_gt hwf hocc1 hocc0)
        hz n hpd, hseed, one_mul]

/-- Tree instance for the amended claim C9: `Scalar(2) * Scalar(3)`,
protocol applied. -/
def c9wG : List Op := [Op.leaf, Op.leaf, Op.mul 0 1]

/-- Machine for the amended claim C9 witness. -/
def c9wM : Machine :=
  ⟨c9wG, fun j => if j = 0 then 2 else if j = 1 then 3 else 6,
   fun j => if j = 2 then 1 else 0⟩

/-- Witness for the amended claim C9 at a concrete tree: the pass writes
`∂(x*y)/∂x = y.val = 3` into node 0. -/
theorem claim_C9_amended_witness :
    (backward c9wG 3 2 c9wM).1.grads 0 = dval c9wG c9wM.vals 0 2 :=
  claim_C9_amended c9wG 2 c9wM (by decide) (by decide)
    (by decide) (by decide) (by rfl)
    (fun j hj => by simp [c9wM, hj]) 0 (by decide)

/-! ### `dval` is the analytic derivative: first-order Taylor expansion -/

theorem evalB_succ_self {g : List Op} (v : Nat → ℚ) {n i : Nat} (t : ℚ)
    (f : Nat) (h : i = n) : evalB g v n t (f + 1) i = t := by
  simp only [evalB, if_pos h]

theorem evalB_succ_leaf {g : List Op} (v : Nat → ℚ) {n i : Nat} (t : ℚ)
    (f : Nat) (hop : opAt g i = Op.leaf) (h : ¬ i = n) :
    evalB g v n t (f + 1) i = v i := by
  simp only [evalB, if_neg h, hop]

theorem evalB_succ_add {g : List Op} (v : Nat → ℚ) {n i a b : Nat} (t : ℚ)
    (f : Nat) (hop : opAt g i = Op.add a b) (h : ¬ i = n) :
    evalB g v n t (f + 1) i = evalB g v n t f a + evalB g v n t f b := by
  simp only [evalB, if_neg h, hop]

theorem evalB_succ_mul {g : List Op} (v : Nat → ℚ) {n i a b : Nat} (t : ℚ)
    (f : Nat) (hop : opAt g i = Op.mul a b) (h : ¬ i = n) :
    evalB g v n t (f + 1) i = evalB g v n t f a * evalB g v n t f b := by
  simp only [evalB, if_neg h, hop]

theorem evalB_stable {g : List Op} (hwf : Wf g) (v : Nat → ℚ) (n : Nat)
    (t : ℚ) : ∀ i, ∀ f, i < f → evalB g v n t f i = evalWith g v n t i := by
  intro i
  induction i using Nat.strong_induction_on with
  | _ i ih =>
    intro f hf
    cases f with
    | zero => omega
    | succ f' =>
      show evalB g v n t (f' + 1) i = evalB g v n t (i + 1) i
      by_cases hn : i = n
      · rw [evalB_succ_self v t f' hn, evalB_succ_self v t i hn]
      cases hop : opAt g i with
      | leaf => rw [evalB_succ_leaf v t f' hop hn, evalB_succ_leaf v t i hop hn]
      | add a b =>
        have haa : a < i := wf_operand_lt hwf (opAt_mem_add hop).1
        have hbb : b < i := wf_operand_lt hwf (opAt_mem_add hop).2
        rw [evalB_succ_add v t f' hop hn, evalB_succ_add v t i hop hn,
            ih a haa f' (by omega), ih a haa i (by omega),
            ih b hbb f' (by omega), ih b hbb i (by omega)]
      | mul a b =>
        have haa : a < i := wf_operand_lt hwf (opAt_mem_mul hop).1
        have hbb : b < i := wf_operand_lt hwf (opAt_mem_mul hop).2
        rw [evalB_succ_mul v t f' hop hn, evalB_succ_mul v t i hop hn,
            ih a haa f' (by omega), ih a haa i (by omega),
            ih b hbb f' (by omega), ih b hbb i (by omega)]

theorem remB_succ_self {g : List Op} (v : Nat → ℚ) {n i : Nat} (h : ℚ)
    (f : Nat) (hn : i = n) : remB g v n h (f + 1) i = 0 := by
  simp only [remB, if_pos hn]

theorem remB_succ_leaf {g : List Op} (v : Nat → ℚ) {n i : Nat} (h : ℚ)
    (f : Nat) (hop : opAt g i = Op.leaf) (hn : ¬ i = n) :
    remB g v n h (f + 1) i = 0 := by
  simp only [remB, if_neg hn, hop]

theorem remB_succ_add {g : List Op} (v : Nat → ℚ) {n i a b : Nat} (h : ℚ)
    (f : Nat) (hop : opAt g i = Op.add a b) (hn : ¬ i = n) :
    remB g v n h (f + 1) i = remB g v n h f a + remB g v n h f b := by
  simp only [remB, if_neg hn, hop]

theorem remB_succ_mul {g : List Op} (v : Nat → ℚ) {n i a b : Nat} (h : ℚ)
    (f : Nat) (hop : opAt g i = Op.mul a b) (hn : ¬ i = n) :
    remB g v n h (f + 1) i =
      dvalB g v n f a * dvalB g v n f b +
      v a * remB g v n h f b + v b * remB g v n h f a +
      h * (dvalB g v n f a * remB g v n h f b +
           dvalB g v n f b * remB g v n h f a) +
      h * h * (remB g v n h f a * remB g v n h f b) := by
  simp only [remB, if_neg hn, hop]

theorem remB_stable {g : List Op} (hwf : Wf g) (v : Nat → ℚ) (n : Nat)
    (h : ℚ) : ∀ i, ∀ f, i < f → remB g v n h f i = rem g v n h i := by
  intro i
  induction i using Nat.strong_induction_on with
  | _ i ih =>
    intro f hf
    cases f with
    | zero => omega
    | succ f' =>
      show remB g v n h (f' + 1) i = remB g v n h (i + 1) i
      by_cases hn : i = n
      · rw [remB_succ_self v h f' hn, remB_succ_self v h i hn]
      cases hop : opAt g i with
      | leaf => rw [remB_succ_leaf v h f' hop hn, remB_succ_leaf v h i hop hn]
      | add a b =>
        have haa : a < i := wf_operand_lt hwf (opAt_mem_add hop).1
        have hbb : b < i := wf_operand_lt hwf (opAt_mem_add hop).2
        rw [remB_succ_add v h f' hop hn, remB_succ_add v h i hop hn,
            ih a haa f' (by omega), ih a haa i (by omega),
            ih b hbb f' (by omega), ih b hbb i (by omega)]
      | mul a b =>
        have haa : a < i := wf_operand_lt hwf (opAt_mem_mul hop).1
        have hbb : b < i := wf_operand_lt hwf (opAt_mem_mul hop).2
        rw [remB_succ_mul v h f' hop hn, remB_succ_mul v h i hop hn,
            ih a haa f' (by omega), ih a haa i (by omega),
            ih b hbb f' (by omega), ih b hbb i (by omega),
            dvalB_stable hwf v n a f' (by omega),
            dvalB_stable hwf v n a i (by omega),
            dvalB_stable hwf v n b f' (by omega),
            dvalB_stable hwf v n b i (by omega)]

/-- First-order Taylor expansion: perturbing node `n`'s stored value by
`h` and re-evaluating changes every node's value by
`h * (partial derivative) + h² * (remainder)`.  This certifies `dval` as
the analytic partial derivative of each node's value with respect to
node `n`'s value. -/
theorem evalWith_taylor {g : List Op} (hwf : Wf g) {v : Nat → ℚ}
    (hcons : Consistent g v) (n : Nat) (h : ℚ) :
    ∀ i, evalWith g v n (v n + h) i =
      v i + h * dval g v n i + h * h * rem g v n h i := by
  intro i
  induction i using Nat.strong_induction_on with
  | _ i ih =>
    by_cases hn : i = n
    · subst hn
      show evalB g v i (v i + h) (i + 1) i = _
      rw [evalB_succ_self v (v i + h) i rfl, dval_self]
      show v i + h = v i + h * 1 + h * h * remB g v i h (i + 1) i
      rw [remB_succ_self v h i rfl]
      ring
    cases hop : opAt g i with
    | leaf =>
      show evalB g v n (v n + h) (i + 1) i = _
      rw [evalB_succ_leaf v (v n + h) i hop hn, dval_leaf v hop hn]
      show v i = v i + h * 0 + h * h * remB g v n h (i + 1) i
      rw [remB_succ_leaf v h i hop hn]
      ring
    | add a b =>
      have haa : a < i := wf_operand_lt hwf (opAt_mem_add hop).1
      have hbb : b < i := wf_operand_lt hwf (opAt_mem_add hop).2
      have hil : i < g.length := operand_lt_length (opAt_mem_add hop).1
      have hv : v i = v a + v b := by
        have hc := hcons i hil
        rw [hop] at hc
        exact hc
      show evalB g v n (v n + h) (i + 1) i = _
      rw [evalB_succ_add v (v n + h) i hop hn,
          evalB_stable hwf v n (v n + h) a i (by omega),
          evalB_stable hwf v n (v n + h) b i (by omega),
          ih a haa, ih b hbb, dval_add hwf v hop hn]
      show _ = v i + h * (dval g v n a + dval g v n b) +
        h * h * remB g v n h (i + 1) i
      rw [remB_succ_add v h i hop hn,
          remB_stable hwf v n h a i (by omega),
          remB_stable hwf v n h b i (by omega), hv]
      ring
    | mul a b =>
      have haa : a < i := wf_operand_lt hwf (opAt_mem_mul hop).1
      have hbb : b < i := wf_operand_lt hwf (opAt_mem_mul hop).2
      have hil : i < g.length := operand_lt_length (opAt_mem_mul hop).1
      have hv : v i = v a * v b := by
        have hc := hcons i hil
        rw [hop] at hc
        exact hc
      show evalB g v n (v n + h) (i + 1) i = _
      rw [evalB_succ_mul v (v n + h) i hop hn,
          evalB_stable hwf v n (v n + h) a i (by omega),
          evalB_stable hwf v n (v n + h) b i (by omega),
          ih a haa, ih b hbb, dval_mul hwf v hop hn]
      show _ = v i + h * (v b * dval g v n a + v a * dval g v n b) +
        h * h * remB g v n h (i + 1) i
      rw [remB_succ_mul v h i hop hn,
          remB_stable hwf v n h a i (by omega),
          remB_stable hwf v n h b i (by omega),
          dvalB_stable hwf v n a i (by omega),
          dvalB_stable hwf v n b i (by omega), hv]
      ring

/-! ### Trace accounting for the eager cascade -/

theorem addGrad2_grads (a b : Nat) (x1 x2 : ℚ) (m : Machine) (j : Nat) :
    (addGrad b x2 (addGrad a x1 m)).grads j =
      m.grads j + ((if a = j then x1 else 0) + (if b = j then x2 else 0)) := by
  show (if j = b then (if b = a then m.grads a + x1 else m.grads b) + x2
        else if j = a then m.grads a + x1 else m.grads j) =
      m.grads j + ((if a = j then x1 else 0) + (if b = j then x2 else 0))
  split_ifs
  all_goals try (exfalso; omega)
  all_goals subst_vars
  all_goals ring

theorem cw_leaf {g : List Op} (v : Nat → ℚ) {c : Nat} (n : Nat)
    (hop : opAt g c = Op.leaf) : cw g v c n = 0 := by
  simp [cw, hop]

theorem cw_add {g : List Op} (v : Nat → ℚ) {c a b : Nat} (n : Nat)
    (hop : opAt g c = Op.add a b) :
    cw g v c n = (if a = n then 1 else 0) + (if b = n then 1 else 0) := by
  simp [cw, hop]

theorem cw_mul {g : List Op} (v : Nat → ℚ) {c a b : Nat} (n : Nat)
    (hop : opAt g c = Op.mul a b) :
    cw g v c n = (if a = n then v b else 0) + (if b = n then v a else 0) := by
  simp [cw, hop]

/-- Gradient bookkeeping: after a backward pass, each node's gradient is
its prior value plus, for every rule firing `(c, gr)` in the trace, the
local contribution `cw c n * gr`. -/
theorem backward_trace_sum {g : List Op} :
    ∀ (f i : Nat) (m : Machine) (j : Nat),
      (backward g f i m).1.grads j =
        m.grads j +
        ((backward g f i m).2.map fun p => cw g m.vals p.1 j * p.2).sum := by
  intro f
  induction f with
  | zero => intro i m j; simp [backward]
  | succ f ih =>
    intro i m j
    cases hop : opAt g i with
    | leaf => rw [backward_succ_leaf f m hop]; simp
    | add a b =>
      rw [backward_succ_add f m hop]
      simp only [List.map_cons, List.sum_cons, List.map_append,
        List.sum_append]
      have hv1 : (backward g f a
          (addGrad b (m.grads i) (addGrad a (m.grads i) m))).1.vals = m.vals :=
        backward_vals g f a _
      have hv2 : (addGrad b (m.grads i) (addGrad a (m.grads i) m)).vals =
          m.vals := rfl
      rw [ih b _ j, hv1, ih a _ j, hv2, addGrad2_grads, cw_add m.vals j hop]
      by_cases ha : a = j <;> by_cases hb : b = j <;>
        simp [ha, hb] <;> ring
    | mul a b =>
      rw [backward_succ_mul f m hop]
      simp only [List.map_cons, List.sum_cons, List.map_append,
        List.sum_append]
      have hv1 : (backward g f a
          (addGrad b (m.vals a * m.grads i)
            (addGrad a (m.vals b * m.grads i) m))).1.vals = m.vals :=
        backward_vals g f a _
      have hv2 : (addGrad b (m.vals a * m.grads i)
          (addGrad a (m.vals b * m.grads i) m)).vals = m.vals := rfl
      rw [ih b _ j, hv1, ih a _ j, hv2, addGrad2_grads, cw_mul m.vals j hop]
      by_cases ha : a = j <;> by_cases hb : b = j <;>
        simp [ha, hb] <;> ring

/-- Every rule firing in the trace belongs to a reachable interior
node. -/
theorem backward_trace_mem {g : List Op} (hwf : Wf g) :
    ∀ (f i : Nat) (m : Machine) (p : Nat × ℚ),
      p ∈ (backward g f i m).2 → Reach g i p.1 ∧ Interior g p.1 := by
  intro f
  induction f with
  | zero => intro i m p hp; simp [backward] at hp
  | succ f ih =>
    intro i m p hp
    cases hop : opAt g i with
    | leaf => rw [backward_succ_leaf f m hop] at hp; simp at hp
    | add a b =>
      rw [backward_succ_add f m hop] at hp
      simp only [List.mem_cons, List.mem_append] at hp
      rcases hp with rfl | hp | hp
      · exact ⟨reach_self g i, by simp [Interior, hop]⟩
      · obtain ⟨hr, hint⟩ := ih a _ p hp
        exact ⟨reach_step hwf (opAt_mem_add hop).1 hr, hint⟩
      · obtain ⟨hr, hint⟩ := ih b _ p hp
        exact ⟨reach_step hwf (opAt_mem_add hop).2 hr, hint⟩
    | mul a b =>
      rw [backward_succ_mul f m hop] at hp
      simp only [List.mem_cons, List.mem_append] at hp
      rcases hp with rfl | hp | hp
      · exact ⟨reach_self g i, by simp [Interior, hop]⟩
      · obtain ⟨hr, hint⟩ := ih a _ p hp
        exact ⟨reach_step hwf (opAt_mem_mul hop).1 hr, hint⟩
      · obtain ⟨hr, hint⟩ := ih b _ p hp
        exact ⟨reach_step hwf (opAt_mem_mul hop).2 hr, hint⟩

/-- With enough fuel, every reachable interior node fires at least
once. -/
theorem backward_trace_complete {g : List Op} (hwf : Wf g) :
    ∀ (f i : Nat) (m : Machine) (c : Nat), i < f → Reach g i c →
      Interior g c → ∃ gr, (c, gr) ∈ (backward g f i m).2 := by
  intro f
  induction f with
  | zero => intro i m c hf _ _; omega
  | succ f ih =>
    intro i m c hf hr hint
    cases hop : opAt g i with
    | leaf =>
      rcases reach_inv hwf hr with rfl | ⟨a, ha, _⟩
      · exact absurd hop hint
      · rw [hop] at ha; simp [operands] at ha
    | add a b =>
      rw [backward_succ_add f m hop]
      rcases reach_inv hwf hr with rfl | ⟨x, hx, hrx⟩
      · exact ⟨m.grads i, by simp⟩
      · have hxi : x < i := wf_operand_lt hwf hx
        have hxab : x = a ∨ x = b := by
          rw [hop] at hx; simpa [operands] using hx
        rcases hxab with hxa | hxb
        · subst hxa
          obtain ⟨gr, hgr⟩ := ih x
            (addGrad b (m.grads i) (addGrad x (m.grads i) m)) c
            (by omega) hrx hint
          refine ⟨gr, ?_⟩
          simp only [List.mem_cons, List.mem_append]
          exact Or.inr (Or.inl hgr)
        · subst hxb
          obtain ⟨gr, hgr⟩ := ih x
            ((backward g f a (addGrad x (m.grads i) (addGrad a (m.grads i) m))).1) c
            (by omega) hrx hint
          refine ⟨gr, ?_⟩
          simp only [List.mem_cons, List.mem_append]
          exact Or.inr (Or.inr hgr)
    | mul a b =>
      rw [backward_succ_mul f m hop]
      rcases reach_inv hwf hr with rfl | ⟨x, hx, hrx⟩
      · exact ⟨m.grads i, by simp⟩
      · have hxi : x < i := wf_operand_lt hwf hx
        have hxab : x = a ∨ x = b := by
          rw [hop] at hx; simpa [operands] using hx
        rcases hxab with hxa | hxb
        · subst hxa
          obtain ⟨gr, hgr⟩ := ih x
            (addGrad b (m.vals x * m.grads i)
              (addGrad x (m.vals b * m.grads i) m)) c
            (by omega) hrx hint
          refine ⟨gr, ?_⟩
          simp only [List.mem_cons, List.mem_append]
          exact Or.inr (Or.inl hgr)
        · subst hxb
          obtain ⟨gr, hgr⟩ := ih x
            ((backward g f a (addGrad x (m.vals a * m.grads i)
              (addGrad a (m.vals x * m.grads i) m))).1) c
            (by omega) hrx hint
          refine ⟨gr, ?_⟩
          simp only [List.mem_cons, List.mem_append]
          exact Or.inr (Or.inr hgr)

/-! ### The reverse (adjoint) chain rule for `dval` -/

theorem cw_ne_zero_mem {g : List Op} {v : Nat → ℚ} {c n : Nat}
    (h : cw g v c n ≠ 0) : n ∈ operands (opAt g c) := by
  by_contra hmem
  apply h
  cases hop : opAt g c with
  | leaf => exact cw_leaf v n hop
  | add a b =>
    rw [hop] at hmem
    simp only [operands, List.mem_cons, List.not_mem_nil, or_false,
      not_or] at hmem
    rw [cw_add v n hop, if_neg (fun he => hmem.1 he.symm),
        if_neg (fun he => hmem.2 he.symm)]
    ring
  | mul a b =>
    rw [hop] at hmem
    simp only [operands, List.mem_cons, List.not_mem_nil, or_false,
      not_or] at hmem
    rw [cw_mul v n hop, if_neg (fun he => hmem.1 he.symm),
        if_neg (fun he => hmem.2 he.symm)]
    ring

theorem sum_cw_dval_self {g : List Op} (hwf : Wf g) (v : Nat → ℚ) (n : Nat) :
    ∑ c in Finset.range g.length, cw g v c n * dval g v c n = 0 := by
  refine Finset.sum_eq_zero fun c _ => ?_
  by_cases hc : cw g v c n = 0
  · rw [hc, zero_mul]
  · rw [dval_high hwf v (wf_operand_lt hwf (cw_ne_zero_mem hc)), mul_zero]

/-- Reverse chain rule: for `n` other than the evaluation point `r`, the
forward derivative of `r` with respect to `n` equals the sum over all
consumers `c` of `n` of the local backward weight times the derivative of
`r` with respect to `c`.  This is the recurrence the topological backward
pass computes. -/
theorem dval_reverse {g : List Op} (hwf : Wf g) (v : Nat → ℚ) :
    ∀ (r n : Nat), ¬ n = r →
      dval g v n r =
        ∑ c in Finset.range g.length, cw g v c n * dval g v c r := by
  intro r
  induction r using Nat.strong_induction_on with
  | _ r ih =>
    intro n hn
    cases hop : opAt g r with
    | leaf =>
      rw [dval_leaf v hop fun he => hn he.symm]
      symm
      refine Finset.sum_eq_zero fun c _ => ?_
      by_cases hcr : c = r
      · subst hcr; rw [cw_leaf v n hop, zero_mul]
      · rw [dval_leaf v hop fun he => hcr he.symm, mul_zero]
    | add a b =>
      have hra : a < r := wf_operand_lt hwf (opAt_mem_add hop).1
      have hrb : b < r := wf_operand_lt hwf (opAt_mem_add hop).2
      have hrlen : r < g.length := operand_lt_length (opAt_mem_add hop).1
      have hrmem : r ∈ Finset.range g.length := Finset.mem_range.mpr hrlen
      rw [← Finset.add_sum_erase _
        (fun c => cw g v c n * dval g v c r) hrmem, dval_self]
      have he : ∀ c ∈ (Finset.range g.length).erase r,
          cw g v c n * dval g v c r =
          cw g v c n * dval g v c a + cw g v c n * dval g v c b := by
        intro c hc
        have hrc : ¬ r = c := fun heq => (Finset.mem_erase.mp hc).1 heq.symm
        rw [dval_add hwf v hop hrc, mul_add]
      rw [Finset.sum_congr rfl he, Finset.sum_add_distrib]
      have hA : ∑ c in (Finset.range g.length).erase r,
          cw g v c n * dval g v c a =
          ∑ c in Finset.range g.length, cw g v c n * dval g v c a := by
        rw [← Finset.add_sum_erase _
          (fun c => cw g v c n * dval g v c a) hrmem,
          dval_high hwf v hra, mul_zero, zero_add]
      have hB : ∑ c in (Finset.range g.length).erase r,
          cw g v c n * dval g v c b =
          ∑ c in Finset.range g.length, cw g v c n * dval g v c b := by
        rw [← Finset.add_sum_erase _
          (fun c => cw g v c n * dval g v c b) hrmem,
          dval_high hwf v hrb, mul_zero, zero_add]
      rw [hA, hB, dval_add hwf v hop fun he => hn he.symm, cw_add v n hop]
      by_cases hna : n = a <;> by_cases hnb : n = b
      · subst hna; subst hnb
        rw [dval_self, sum_cw_dval_self hwf]
        norm_num
      · subst hna
        rw [if_pos rfl, if_neg fun he => hnb he.symm, dval_self,
            sum_cw_dval_self hwf, ← ih b hrb n hnb]
        ring
      · subst hnb
        rw [if_neg fun he => hna he.symm, if_pos rfl, dval_self,
            sum_cw_dval_self hwf, ← ih a hra n hna]
        ring
      · rw [if_neg fun he => hna he.symm, if_neg fun he => hnb he.symm,
            ← ih a hra n hna, ← ih b hrb n hnb]
        ring
    | mul a b =>
      have hra : a < r := wf_operand_lt hwf (opAt_mem_mul hop).1
      have hrb : b < r := wf_operand_lt hwf (opAt_mem_mul hop).2
      have hrlen : r < g.length := operand_lt_length (opAt_mem_mul hop).1
      have hrmem : r ∈ Finset.range g.length := Finset.mem_range.mpr hrlen
      rw [← Finset.add_sum_erase _
        (fun c => cw g v c n * dval g v c r) hrmem, dval_self]
      have he : ∀ c ∈ (Finset.range g.length).erase r,
          cw g v c n * dval g v c r =
          v b * (cw g v c n * dval g v c a) +
          v a * (cw g v c n * dval g v c b) := by
        intro c hc
        have hrc : ¬ r = c := fun heq => (Finset.mem_erase.mp hc).1 heq.symm
        rw [dval_mul hwf v hop hrc]
        ring
      rw [Finset.sum_congr rfl he, Finset.sum_add_distrib,
          ← Finset.mul_sum _ (fun c => cw g v c n * dval g v c a) (v b),
          ← Finset.mul_sum _ (fun c => cw g v c n * dval g v c b) (v a)]
      have hA : ∑ c in (Finset.range g.length).erase r,
          cw g v c n * dval g v c a =
          ∑ c in Finset.range g.length, cw g v c n * dval g v c a := by
        rw [← Finset.add_sum_erase _
          (fun c => cw g v c n * dval g v c a) hrmem,
          dval_high hwf v hra, mul_zero, zero_add]
      have hB : ∑ c in (Finset.range g.length).erase r,
          cw g v c n * dval g v c b =
          ∑ c in Finset.range g.length, cw g v c n * dval g v c b := by
        rw [← Finset.add_sum_erase _
          (fun c => cw g v c n * dval g v c b) hrmem,
          dval_high hwf v hrb, mul_zero, zero_add]
      rw [hA, hB, dval_mul hwf v hop fun he => hn he.symm, cw_mul v n hop]
      by_cases hna : n = a <;> by_cases hnb : n = b
      · subst hna; subst hnb
        rw [dval_self, sum_cw_dval_self hwf]
        norm_num
      · subst hna
        rw [if_pos rfl, if_neg fun he => hnb he.symm, dval_self,
            sum_cw_dval_self hwf, ← ih b hrb n hnb]
        ring
      · subst hnb
        rw [if_neg fun he => hna he.symm, if_pos rfl, dval_self,
            sum_cw_dval_self hwf, ← ih a hra n hna]
        ring
      · rw [if_neg fun he => hna he.symm, if_neg fun he => hnb he.symm,
            ← ih a hra n hna, ← ih b hrb n hnb]
        ring

/-- Claim C1 (spec §4.4 contract): for every expression graph built from
the `Scalar` constructors and operators (well-formed, consistently
valued), if the caller zeroes the gradient of every node that will be
read (all reachable non-root nodes), seeds `root.grad = 1`, and invokes
`root.backward()`, then — PROVIDED each node accumulates the
contributions of all of its consumers before its own backward rule fires,
formalised on the execution trace as: every rule firing `(c, gr)` saw the
gradient `c` holds at the end of the pass (no contribution arrived after
the firing), and no rule fired twice — every reachable node's gradient
equals the partial derivative of the root's value with respect to that
node's value.  The derivative is the forward-mode `dval`, certified
analytic by the accompanying first-order Taylor expansion of the root's
value in the node's value. -/
theorem claim_C1 (g : List Op) (root : Nat) (m : Machine)
    (hwf : Wf g) (hroot : root < g.length)
    (hcons : Consistent g m.vals)
    (hseed : m.grads root = 1)
    (hzero : ∀ j, ¬ j = root → Reach g root j → m.grads j = 0)
    (hord : ∀ p ∈ (backward g (root + 1) root m).2,
      (backward g (root + 1) root m).1.grads p.1 = p.2)
    (honce : ((backward g (root + 1) root m).2.map Prod.fst).Nodup) :
    ∀ n, Reach g root n →
      (backward g (root + 1) root m).1.grads n = dval g m.vals n root ∧
      ∀ h, evalWith g m.vals n (m.vals n + h) root =
        m.vals root + h * dval g m.vals n root +
        h * h * rem g m.vals n h root := by
  have hroot_grads : (backward g (root + 1) root m).1.grads root = 1 := by
    rw [backward_trace_sum]
    have hz : ((backward g (root + 1) root m).2.map
        fun p => cw g m.vals p.1 root * p.2).sum = 0 := by
      refine List.sum_eq_zero fun x hx => ?_
      obtain ⟨p, hp, rfl⟩ := List.mem_map.mp hx
      by_cases hcw : cw g m.vals p.1 root = 0
      · rw [hcw, zero_mul]
      · have hlt : root < p.1 := wf_operand_lt hwf (cw_ne_zero_mem hcw)
        have hle : p.1 ≤ root :=
          reach_le hwf (backward_trace_mem hwf _ _ _ p hp).1
        omega
    rw [hz, hseed]
    norm_num
  have main : ∀ (d n : Nat), root - n ≤ d → Reach g root n →
      (backward g (root + 1) root m).1.grads n = dval g m.vals n root := by
    intro d
    induction d with
    | zero =>
      intro n hd hr
      have hle : n ≤ root := reach_le hwf hr
      have hnr : n = root := by omega
      subst hnr
      rw [hroot_grads, dval_self]
    | succ d ihd =>
      intro n hd hr
      by_cases hnr : n = root
      · subst hnr
        rw [hroot_grads, dval_self]
      · have hnlt : n < root := Nat.lt_of_le_of_ne (reach_le hwf hr) hnr
        rw [backward_trace_sum, hzero n hnr hr]
        have hterm : ∀ p ∈ (backward g (root + 1) root m).2,
            cw g m.vals p.1 n * p.2 =
            cw g m.vals p.1 n * dval g m.vals p.1 root := by
          intro p hp
          by_cases hcw : cw g m.vals p.1 n = 0
          · rw [hcw, zero_mul, zero_mul]
          · have hmem := backward_trace_mem hwf (root + 1) root m p hp
            have hplt : n < p.1 := wf_operand_lt hwf (cw_ne_zero_mem hcw)
            rw [← hord p hp, ihd p.1 (by omega) hmem.1]
        rw [List.map_congr_left hterm]
        have hcomp : ((backward g (root + 1) root m).2.map
            fun p => cw g m.vals p.1 n * dval g m.vals p.1 root) =
            ((backward g (root + 1) root m).2.map Prod.fst).map
              fun c => cw g m.vals c n * dval g m.vals c root := by
          simp [List.map_map, Function.comp]
        rw [hcomp, ← List.sum_toFinset _ honce]
        have hsub : ((backward g (root + 1) root m).2.map Prod.fst).toFinset
            ⊆ Finset.range g.length := by
          intro c hc
          rw [List.mem_toFinset] at hc
          obtain ⟨p, hp, rfl⟩ := List.mem_map.mp hc
          have := reach_le hwf (backward_trace_mem hwf _ _ _ p hp).1
          exact Finset.mem_range.mpr (by omega)
        have hvan : ∀ c ∈ Finset.range g.length,
            c ∉ ((backward g (root + 1) root m).2.map Prod.fst).toFinset →
            cw g m.vals c n * dval g m.vals c root = 0 := by
          intro c _ hck
          by_cases hcw : cw g m.vals c n = 0
          · rw [hcw, zero_mul]
          · have hint : Interior g c :=
              fun hleaf => hcw (cw_leaf m.vals n hleaf)
            by_cases hrc : Reach g root c
            · obtain ⟨gr, hgr⟩ := backward_trace_complete hwf (root + 1)
                root m c (by omega) hrc hint
              exact absurd (List.mem_toFinset.mpr
                (List.mem_map.mpr ⟨(c, gr), hgr, rfl⟩)) hck
            · rw [dval_unreach hwf m.vals hrc, mul_zero]
        rw [Finset.sum_subset hsub hvan, ← dval_reverse hwf m.vals root n hnr]
        ring
  intro n hr
  exact ⟨main root n (by omega) hr, fun h => evalWith_taylor hwf hcons n h root⟩

/-- Graph for the claim C1 witness: `x = Scalar(2)`, `u = x * x`,
`y = u * x` — a chain on which the ordering hypothesis holds. -/
def c1wG : List Op := [Op.leaf, Op.mul 0 0, Op.mul 1 0]

/-- Machine for the claim C1 witness (consistent values, protocol
applied). -/
def c1wM : Machine :=
  ⟨c1wG, fun j => if j = 0 then 2 else if j = 1 then 4 else 8,
   fun j => if j = 2 then 1 else 0⟩

/-- Witness for claim C1 at a concrete graph satisfying the ordering
hypothesis: the pass writes `∂(x³)/∂x = 3·2² = 12` into `x`. -/
theorem claim_C1_witness :
    (backward c1wG 3 2 c1wM).1.grads 0 = dval c1wG c1wM.vals 0 2 :=
  (claim_C1 c1wG 2 c1wM (by decide) (by decide)
    (by
      intro i hi
      have hi3 : i < 3 := by simpa [c1wG] using hi
      interval_cases i <;>
        simp [Consistent, opAt, c1wG, c1wM] <;> norm_num)
    (by rfl)
    (fun j hj _ => by simp [c1wM, hj])
    (by
      intro p hp
      simp only [c1wG, c1wM, backward, opAt, addGrad, upd] at hp ⊢
      norm_num at hp ⊢
      rcases hp with rfl | rfl <;> norm_num [upd])
    (by
      have htr : ((backward c1wG 3 2 c1wM).2.map Prod.fst) = [2, 1] := by
        norm_num [backward, opAt, addGrad, upd, c1wG, c1wM]
      rw [htr]
      decide)
    0 (by decide)).1

/-! ### The `mse` helper (notebook cell-69) -/

/-- The single error kind `mse` can raise: Python's `ZeroDivisionError`
from `1./len(error)` on an empty error list. -/
inductive MseErr where
  | zeroDiv : MseErr
deriving DecidableEq

/-- One element of the `error` list comprehension:
`y[i] + Scalar(-1.0) * y_pred[i]` — a fresh `Scalar(-1.0)`, one
`__mul__`, one `__add__`, in Python evaluation order. -/
def buildErr (yi pi : Nat) (m : Machine) : Nat × Machine :=
  let r1 := scalarInit (-1) m
  let r2 := scalarMul r1.1 pi r1.2
  scalarAdd yi r2.1 r2.2

/-- The `error` list comprehension over the zipped targets and
predictions. -/
def buildErrs : List (Nat × Nat) → Machine → List Nat × Machine
  | [], m => ([], m)
  | p :: rest, m =>
    let r := buildErr p.1 p.2 m
    let rs := buildErrs rest r.2
    (r.1 :: rs.1, rs.2)

/-- The `se` list comprehension: `error[i] * error[i]`. -/
def buildSqs : List Nat → Machine → List Nat × Machine
  | [], m => ([], m)
  | e :: rest, m =>
    let r := scalarMul e e m
    let rs := buildSqs rest r.2
    (r.1 :: rs.1, rs.2)

/-- Python's `sum(se, start)`: left fold of `__add__` over the list. -/
def sumNodes : List Nat → Nat → Machine → Nat × Machine
  | [], acc, m => (acc, m)
  | s :: rest, acc, m =>
    let r := scalarAdd acc s m
    sumNodes rest r.1 r.2

/-- Notebook cell-69 `mse(y, y_pred)`: builds the error and squared-error
node lists, then `Scalar(1./len(error)) * sum(se, Scalar(0))`.  The
division `1./len(error)` raises `ZeroDivisionError` when the error list
is empty — this happens before the sum is formed, exactly as in Python
evaluation order. -/
def mse (ys preds : List Nat) (m : Machine) :
    Except MseErr (Nat × Machine) :=
  let er := buildErrs (ys.zip preds) m
  let sq := buildSqs er.1 er.2
  if er.1.length = 0 then Except.error MseErr.zeroDiv
  else
    let c := scalarInit (1 / (er.1.length : ℚ)) sq.2
    let z := scalarInit 0 c.2
    let s := sumNodes sq.1 z.1 z.2
    let r := scalarMul c.1 s.1 s.2
    Except.ok (r.1, r.2)

theorem scalarInit_spec (v : ℚ) (m : Machine) :
    (scalarInit v m).1 = m.ops.length ∧
    (scalarInit v m).2.ops.length = m.ops.length + 1 ∧
    (scalarInit v m).2.vals m.ops.length = v ∧
    ∀ j, ¬ j = m.ops.length → (scalarInit v m).2.vals j = m.vals j := by
  refine ⟨rfl, by simp [scalarInit], by simp [scalarInit, upd], ?_⟩
  intro j hj
  simp [scalarInit, upd, hj]

theorem scalarAdd_spec (a b : Nat) (m : Machine) :
    (scalarAdd a b m).1 = m.ops.length ∧
    (scalarAdd a b m).2.ops.length = m.ops.length + 1 ∧
    (scalarAdd a b m).2.vals m.ops.length = m.vals a + m.vals b ∧
    ∀ j, ¬ j = m.ops.length → (scalarAdd a b m).2.vals j = m.vals j := by
  refine ⟨rfl, by simp [scalarAdd], by simp [scalarAdd, upd], ?_⟩
  intro j hj
  simp [scalarAdd, upd, hj]

theorem scalarMul_spec (a b : Nat) (m : Machine) :
    (scalarMul a b m).1 = m.ops.length ∧
    (scalarMul a b m).2.ops.length = m.ops.length + 1 ∧
    (scalarMul a b m).2.vals m.ops.length = m.vals a * m.vals b ∧
    ∀ j, ¬ j = m.ops.length → (scalarMul a b m).2.vals j = m.vals j := by
  refine ⟨rfl, by simp [scalarMul], by simp [scalarMul, upd], ?_⟩
  intro j hj
  simp [scalarMul, upd, hj]

theorem buildErr_spec (yi pi : Nat) (m : Machine)
    (hy : yi < m.ops.length) (hp : pi < m.ops.length) :
    (buildErr yi pi m).1 = m.ops.length + 2 ∧
    (buildErr yi pi m).2.ops.length = m.ops.length + 3 ∧
    (buildErr yi pi m).2.vals (m.ops.length + 2) =
      m.vals yi + (-1) * m.vals pi ∧
    ∀ j, j < m.ops.length → (buildErr yi pi m).2.vals j = m.vals j := by
  refine ⟨?_, ?_, ?_, ?_⟩
  · simp only [buildErr, scalarInit, scalarMul, scalarAdd,
      List.length_append, List.length_cons, List.length_nil]
  · simp only [buildErr, scalarInit, scalarMul, scalarAdd,
      List.length_append, List.length_cons, List.length_nil]
  · simp only [buildErr, scalarInit, scalarMul, scalarAdd, upd,
      List.length_append, List.length_cons, List.length_nil]
    norm_num
    split_ifs <;> first | (exfalso; omega) | ring
  · intro j hj
    simp only [buildErr, scalarInit, scalarMul, scalarAdd, upd,
      List.length_append, List.length_cons, List.length_nil]
    norm_num
    split_ifs <;> first | (exfalso; omega) | rfl

theorem buildErrs_spec (pairs : List (Nat × Nat)) :
    ∀ (m : Machine),
      (∀ q ∈ pairs, q.1 < m.ops.length ∧ q.2 < m.ops.length) →
      m.ops.length ≤ (buildErrs pairs m).2.ops.length ∧
      (∀ j, j < m.ops.length → (buildErrs pairs m).2.vals j = m.vals j) ∧
      (∀ e ∈ (buildErrs pairs m).1, e < (buildErrs pairs m).2.ops.length) ∧
      ((buildErrs pairs m).1.map (buildErrs pairs m).2.vals =
        pairs.map fun q => m.vals q.1 + (-1) * m.vals q.2) := by
  induction pairs with
  | nil =>
    intro m _
    exact ⟨Nat.le_refl _, fun j _ => rfl,
      fun e he => absurd he (List.not_mem_nil e), rfl⟩
  | cons p rest ih =>
    intro m hq
    have hp1 : p.1 < m.ops.length := (hq p (List.mem_cons_self p rest)).1
    have hp2 : p.2 < m.ops.length := (hq p (List.mem_cons_self p rest)).2
    obtain ⟨hb1, hb2, hb3, hb4⟩ := buildErr_spec p.1 p.2 m hp1 hp2
    have hrest : ∀ q ∈ rest, q.1 < (buildErr p.1 p.2 m).2.ops.length ∧
        q.2 < (buildErr p.1 p.2 m).2.ops.length := by
      intro q hq'
      have hcomp := hq q (List.mem_cons_of_mem p hq')
      rw [hb2]
      omega
    obtain ⟨ih1, ih2, ih3, ih4⟩ := ih (buildErr p.1 p.2 m).2 hrest
    have hunfold : buildErrs (p :: rest) m =
        ((buildErr p.1 p.2 m).1 ::
          (buildErrs rest (buildErr p.1 p.2 m).2).1,
         (buildErrs rest (buildErr p.1 p.2 m).2).2) := rfl
    rw [hunfold]
    refine ⟨Nat.le_trans (by omega) ih1, ?_, ?_, ?_⟩
    · intro j hj
      rw [ih2 j (by omega), hb4 j hj]
    · intro e he
      rcases List.mem_cons.mp he with rfl | he'
      · exact Nat.lt_of_lt_of_le (by omega) ih1
      · exact ih3 e he'
    · simp only [List.map_cons]
      congr 1
      · rw [ih2 (buildErr p.1 p.2 m).1 (by omega), hb1, hb3]
      · rw [ih4]
        refine List.map_congr_left fun q hq' => ?_
        have hcomp := hq q (List.mem_cons_of_mem p hq')
        rw [hb4 q.1 hcomp.1, hb4 q.2 hcomp.2]

theorem buildSqs_spec (es : List Nat) :
    ∀ (m : Machine), (∀ e ∈ es, e < m.ops.length) →
      m.ops.length ≤ (buildSqs es m).2.ops.length ∧
      (∀ j, j < m.ops.length → (buildSqs es m).2.vals j = m.vals j) ∧
      (∀ s ∈ (buildSqs es m).1, s < (buildSqs es m).2.ops.length) ∧
      ((buildSqs es m).1.map (buildSqs es m).2.vals =
        es.map fun e => m.vals e * m.vals e) := by
  induction es with
  | nil =>
    intro m _
    exact ⟨Nat.le_refl _, fun j _ => rfl,
      fun s hs => absurd hs (List.not_mem_nil s), rfl⟩
  | cons e rest ih =>
    intro m he
    have he1 : e < m.ops.length := he e (List.mem_cons_self e rest)
    obtain ⟨hm1, hm2, hm3, hm4⟩ := scalarMul_spec e e m
    have hrest : ∀ x ∈ rest, x < (scalarMul e e m).2.ops.length := by
      intro x hx
      have := he x (List.mem_cons_of_mem e hx)
      rw [hm2]
      omega
    obtain ⟨ih1, ih2, ih3, ih4⟩ := ih (scalarMul e e m).2 hrest
    have hunfold : buildSqs (e :: rest) m =
        ((scalarMul e e m).1 :: (buildSqs rest (scalarMul e e m).2).1,
         (buildSqs rest (scalarMul e e m).2).2) := rfl
    rw [hunfold]
    refine ⟨Nat.le_trans (by omega) ih1, ?_, ?_, ?_⟩
    · intro j hj
      rw [ih2 j (by omega), hm4 j (by omega)]
    · intro s hs
      rcases List.mem_cons.mp hs with rfl | hs'
      · exact Nat.lt_of_lt_of_le (by omega) ih1
      · exact ih3 s hs'
    · simp only [List.map_cons]
      congr 1
      · rw [ih2 (scalarMul e e m).1 (by omega), hm1, hm3]
      · rw [ih4]
        refine List.map_congr_left fun x hx => ?_
        have hxl := he x (List.mem_cons_of_mem e hx)
        rw [hm4 x (by omega)]

theorem sumNodes_spec (ss : List Nat) :
    ∀ (acc : Nat) (m : Machine), (∀ s ∈ ss, s < m.ops.length) →
      acc < m.ops.length →
      m.ops.length ≤ (sumNodes ss acc m).2.ops.length ∧
      (∀ j, j < m.ops.length → (sumNodes ss acc m).2.vals j = m.vals j) ∧
      (sumNodes ss acc m).1 < (sumNodes ss acc m).2.ops.length ∧
      (sumNodes ss acc m).2.vals (sumNodes ss acc m).1 =
        m.vals acc + (ss.map m.vals).sum := by
  induction ss with
  | nil =>
    intro acc m _ hacc
    refine ⟨Nat.le_refl _, fun j _ => rfl, hacc, ?_⟩
    show m.vals acc = m.vals acc + ([] : List ℚ).sum
    simp
  | cons s rest ih =>
    intro acc m hs hacc
    have hsl : s < m.ops.length := hs s (List.mem_cons_self s rest)
    obtain ⟨ha1, ha2, ha3, ha4⟩ := scalarAdd_spec acc s m
    have hrest : ∀ x ∈ rest, x < (scalarAdd acc s m).2.ops.length := by
      intro x hx
      have := hs x (List.mem_cons_of_mem s hx)
      rw [ha2]
      omega
    have hacc' : (scalarAdd acc s m).1 < (scalarAdd acc s m).2.ops.length := by
      rw [ha1, ha2]
      omega
    obtain ⟨ih1, ih2, ih3, ih4⟩ :=
      ih (scalarAdd acc s m).1 (scalarAdd acc s m).2 hrest hacc'
    have hunfold : sumNodes (s :: rest) acc m =
        sumNodes rest (scalarAdd acc s m).1 (scalarAdd acc s m).2 := rfl
    rw [hunfold]
    refine ⟨Nat.le_trans (by omega) ih1, ?_, ih3, ?_⟩
    · intro j hj
      rw [ih2 j (by omega), ha4 j (by omega)]
    · rw [ih4, ha1, ha3]
      have hmap : rest.map (scalarAdd acc s m).2.vals = rest.map m.vals :=
        List.map_congr_left fun x hx => by
          have := hs x (List.mem_cons_of_mem s hx)
          rw [ha4 x (by omega)]
      rw [hmap]
      simp only [List.map_cons, List.sum_cons]
      ring

/-- The node and machine `mse` returns on the non-error path. -/
def mseOut (ys preds : List Nat) (m : Machine) : Nat × Machine :=
  let er := buildErrs (ys.zip preds) m
  let sq := buildSqs er.1 er.2
  let c := scalarInit (1 / (er.1.length : ℚ)) sq.2
  let z := scalarInit 0 c.2
  let s := sumNodes sq.1 z.1 z.2
  let r := scalarMul c.1 s.1 s.2
  (r.1, r.2)

theorem mse_ok (ys preds : List Nat) (m : Machine)
    (h : ¬ (buildErrs (ys.zip preds) m).1.length = 0) :
    mse ys preds m = Except.ok (mseOut ys preds m) := by
  rw [mse, if_neg h]
  rfl

theorem msePipe_spec (ss : List Nat) (M : Machine) (q : ℚ)
    (hss : ∀ s ∈ ss, s < M.ops.length) :
    (scalarMul (scalarInit q M).1
      (sumNodes ss (scalarInit 0 (scalarInit q M).2).1
        (scalarInit 0 (scalarInit q M).2).2).1
      (sumNodes ss (scalarInit 0 (scalarInit q M).2).1
        (scalarInit 0 (scalarInit q M).2).2).2).2.vals
    (scalarMul (scalarInit q M).1
      (sumNodes ss (scalarInit 0 (scalarInit q M).2).1
        (scalarInit 0 (scalarInit q M).2).2).1
      (sumNodes ss (scalarInit 0 (scalarInit q M).2).1
        (scalarInit 0 (scalarInit q M).2).2).2).1
    = q * (ss.map M.vals).sum := by
  obtain ⟨hc1, hc2, hc3, hc4⟩ := scalarInit_spec q M
  obtain ⟨hz1, hz2, hz3, hz4⟩ := scalarInit_spec 0 (scalarInit q M).2
  have hssz : ∀ s ∈ ss, s < (scalarInit 0 (scalarInit q M).2).2.ops.length := by
    intro s hs
    have := hss s hs
    rw [hz2, hc2]
    omega
  have haccz : (scalarInit 0 (scalarInit q M).2).1 <
      (scalarInit 0 (scalarInit q M).2).2.ops.length := by
    rw [hz1, hz2]
    omega
  obtain ⟨hs1, hs2, hs3, hs4⟩ := sumNodes_spec ss
    (scalarInit 0 (scalarInit q M).2).1 (scalarInit 0 (scalarInit q M).2).2
    hssz haccz
  obtain ⟨hm1, hm2, hm3, hm4⟩ := scalarMul_spec (scalarInit q M).1
    (sumNodes ss (scalarInit 0 (scalarInit q M).2).1
      (scalarInit 0 (scalarInit q M).2).2).1
    (sumNodes ss (scalarInit 0 (scalarInit q M).2).1
      (scalarInit 0 (scalarInit q M).2).2).2
  rw [hm1, hm3]
  have hvq : (sumNodes ss (scalarInit 0 (scalarInit q M).2).1
      (scalarInit 0 (scalarInit q M).2).2).2.vals (scalarInit q M).1 = q := by
    rw [hc1, hs2 M.ops.length (by rw [hz2, hc2]; omega),
        hz4 M.ops.length (by rw [hc2]; omega), hc3]
  have hmapz : ss.map (scalarInit 0 (scalarInit q M).2).2.vals =
      ss.map M.vals := by
    refine List.map_congr_left fun s hs => ?_
    have := hss s hs
    rw [hz4 s (by rw [hc2]; omega), hc4 s (by omega)]
  have hvs : (sumNodes ss (scalarInit 0 (scalarInit q M).2).1
      (scalarInit 0 (scalarInit q M).2).2).2.vals
      (sumNodes ss (scalarInit 0 (scalarInit q M).2).1
        (scalarInit 0 (scalarInit q M).2).2).1 =
      0 + (ss.map M.vals).sum := by
    rw [hs4, hmapz, hz1, hz3]
  rw [hvq, hvs]
  ring

/-- Claim C10: `mse` with empty target and prediction lists raises a
`ZeroDivisionError` (the scaling factor divides `1.0` by the length of
the empty error list, before the sum is even formed); for non-empty
lists of equal length `n` (whose node ids are valid in the machine), it
returns a node whose value is `(1/n) * Σ (y_i - y_pred_i)²` — here in
exact rational arithmetic, the float64 evaluation of the same expression
tree in the notebook. -/
theorem claim_C10 :
    (∀ m, mse [] [] m = Except.error MseErr.zeroDiv) ∧
    ∀ (ys preds : List Nat) (m : Machine), ¬ ys = [] →
      preds.length = ys.length →
      (∀ i ∈ ys, i < m.ops.length) → (∀ i ∈ preds, i < m.ops.length) →
      ∃ r m', mse ys preds m = Except.ok (r, m') ∧
        m'.vals r = (1 / (ys.length : ℚ)) *
          ((ys.zip preds).map fun q => (m.vals q.1 - m.vals q.2) ^ 2).sum := by
  constructor
  · intro m
    rfl
  · intro ys preds m hne hlen hys hpreds
    have hzlen : (ys.zip preds).length = ys.length := by
      rw [List.length_zip ys preds, hlen]
      omega
    have hqbound : ∀ q ∈ ys.zip preds,
        q.1 < m.ops.length ∧ q.2 < m.ops.length := by
      intro q hq
      obtain ⟨a, b⟩ := q
      have hab := List.of_mem_zip hq
      exact ⟨hys a hab.1, hpreds b hab.2⟩
    obtain ⟨he1, he2, he3, he4⟩ := buildErrs_spec (ys.zip preds) m hqbound
    obtain ⟨hs1, hs2, hs3, hs4⟩ := buildSqs_spec
      (buildErrs (ys.zip preds) m).1 (buildErrs (ys.zip preds) m).2 he3
    have herlen : (buildErrs (ys.zip preds) m).1.length = ys.length := by
      have hmm := congrArg List.length he4
      simp only [List.length_map] at hmm
      rw [hmm, hzlen]
    have hlenpos : ¬ (buildErrs (ys.zip preds) m).1.length = 0 := by
      rw [herlen]
      cases ys with
      | nil => exact absurd rfl hne
      | cons a l => simp
    have hpipe := msePipe_spec (buildSqs (buildErrs (ys.zip preds) m).1
        (buildErrs (ys.zip preds) m).2).1
      (buildSqs (buildErrs (ys.zip preds) m).1
        (buildErrs (ys.zip preds) m).2).2
      (1 / ((buildErrs (ys.zip preds) m).1.length : ℚ)) hs3
    refine ⟨(mseOut ys preds m).1, (mseOut ys preds m).2,
      mse_ok ys preds m hlenpos, ?_⟩
    have hv : (mseOut ys preds m).2.vals (mseOut ys preds m).1 =
        (1 / ((buildErrs (ys.zip preds) m).1.length : ℚ)) *
        ((buildSqs (buildErrs (ys.zip preds) m).1
            (buildErrs (ys.zip preds) m).2).1.map
          (buildSqs (buildErrs (ys.zip preds) m).1
            (buildErrs (ys.zip preds) m).2).2.vals).sum := hpipe
    rw [hv]
    have hsqsum : ((buildSqs (buildErrs (ys.zip preds) m).1
        (buildErrs (ys.zip preds) m).2).1.map
        (buildSqs (buildErrs (ys.zip preds) m).1
          (buildErrs (ys.zip preds) m).2).2.vals).sum =
        ((ys.zip preds).map fun p =>
          (m.vals p.1 - m.vals p.2) ^ 2).sum := by
      rw [hs4]
      have hcomp : (buildErrs (ys.zip preds) m).1.map
          (fun e => (buildErrs (ys.zip preds) m).2.vals e *
            (buildErrs (ys.zip preds) m).2.vals e) =
          ((buildErrs (ys.zip preds) m).1.map
            (buildErrs (ys.zip preds) m).2.vals).map fun x => x * x := by
        rw [List.map_map]
        rfl
      rw [hcomp, he4, List.map_map]
      refine congrArg List.sum (List.map_congr_left fun p _ => ?_)
      show (m.vals p.1 + (-1) * m.vals p.2) * (m.vals p.1 + (-1) * m.vals p.2)
        = (m.vals p.1 - m.vals p.2) ^ 2
      ring
    rw [hsqsum, herlen]

/-- Machine for the claim C10 witness: `Scalar(3)` (target, node 0) and
`Scalar(1)` (prediction, node 1). -/
def c10wM : Machine := (scalarInit 1 (scalarInit 3 emptyM).2).2

/-- Witness for claim C10 at one target/prediction pair: the returned
node's value is `(1/1) * (3 - 1)² = 4`. -/
theorem claim_C10_witness :
    mse [] [] c10wM = Except.error MseErr.zeroDiv ∧
    ∃ r m', mse [0] [1] c10wM = Except.ok (r, m') ∧
      m'.vals r = (1 / (([0] : List Nat).length : ℚ)) *
        (([0].zip [1]).map fun q =>
          (c10wM.vals q.1 - c10wM.vals q.2) ^ 2).sum :=
  ⟨claim_C10.1 c10wM,
   claim_C10.2 [0] [1] c10wM (by decide) rfl
     (by decide) (by decide)⟩

end Autodiff
